import Mathlib

/-!
# Verification of the file-organizer core (m3da1/file-organizer)

A shallow embedding of the repository's classification-and-move engine
(`src/cli.rs`) and of the preview-screen key loop (`src/tui.rs`), together
with theorems settling the specification claims.

Modelling choices:
* A filesystem path is its list of components (`Path := List String`).
* The filesystem is a finite state: a list of regular files (path paired
  with an abstract payload `Nat` standing for the file's bytes; `fs::rename`
  preserves it, and `metadata.len()` is read off it) and a list of
  directories.
* The fallible primitives `fs::create_dir`, `fs::remove_file`, `fs::rename`
  are driven by an error oracle `ErrOracle` deciding, per operation, whether
  the underlying OS call fails; `noErr` is the oracle of an error-free run.
* `mime_guess::from_path` is an external name-based sniffer, passed in as a
  function `String → Option String`.
-/

namespace FileOrg

/-- A filesystem path, represented by its list of components. -/
abbrev Path := List String

/-- `FileInfo` from `src/cli.rs`: a scanned file record. -/
structure FileInfo where
  path : Path
  mime_type : Option String
  category : String
  size : Nat
deriving DecidableEq, Repr

/-- The filesystem state: regular files (with abstract content payload)
and directories. -/
structure FS where
  files : List (Path × Nat)
  dirs : List Path
deriving DecidableEq, Repr

/-- `Path::exists()`: true for an existing file or directory. -/
def FS.pathExists (fs : FS) (p : Path) : Bool :=
  fs.files.any (fun e => decide (e.1 = p)) || fs.dirs.any (fun d => decide (d = p))

/-- Content payload stored at a path (0 if absent; only read on paths that
exist in the scenarios considered). -/
def FS.contentOf (fs : FS) (p : Path) : Nat :=
  ((fs.files.find? (fun e => decide (e.1 = p))).map Prod.snd).getD 0

/-- `fs::create_dir`: register a new directory. -/
def FS.createDir (fs : FS) (p : Path) : FS :=
  { fs with dirs := p :: fs.dirs }

/-- `fs::remove_file`: drop every file entry at the given path. -/
def FS.removeFile (fs : FS) (p : Path) : FS :=
  { fs with files := fs.files.filter (fun e => !decide (e.1 = p)) }

/-- `fs::rename src dst`: the file's payload moves from `src` to `dst`
(replacing anything previously at `dst`, as the POSIX call does). -/
def FS.renameFile (fs : FS) (src dst : Path) : FS :=
  let c := fs.contentOf src
  { fs with
    files := (fs.files.filter (fun e => !decide (e.1 = src) && !decide (e.1 = dst))) ++ [(dst, c)] }

/-- The four category folder names, in the order they appear in
`scan_directory_recursive` (`src/cli.rs:441`). -/
def catFolders : List String := ["Multimedia", "Docs", "Compressed", "Misc"]

/-- The fixed content-type table of `categorize_file` (`src/cli.rs:453`),
transcribed entry for entry. -/
def mime_categories : List (String × String) := [
  ("image/png", "Multimedia"),
  ("image/jpeg", "Multimedia"),
  ("image/jpg", "Multimedia"),
  ("image/gif", "Multimedia"),
  ("image/webp", "Multimedia"),
  ("image/svg+xml", "Multimedia"),
  ("image/bmp", "Multimedia"),
  ("image/tiff", "Multimedia"),
  ("image/x-icon", "Multimedia"),
  ("audio/mpeg", "Multimedia"),
  ("audio/ogg", "Multimedia"),
  ("audio/wav", "Multimedia"),
  ("audio/webm", "Multimedia"),
  ("audio/aac", "Multimedia"),
  ("audio/flac", "Multimedia"),
  ("audio/x-m4a", "Multimedia"),
  ("video/mp4", "Multimedia"),
  ("video/mpeg", "Multimedia"),
  ("video/ogg", "Multimedia"),
  ("video/webm", "Multimedia"),
  ("video/x-msvideo", "Multimedia"),
  ("video/x-matroska", "Multimedia"),
  ("video/quicktime", "Multimedia"),
  ("application/zip", "Compressed"),
  ("application/x-rar-compressed", "Compressed"),
  ("application/x-7z-compressed", "Compressed"),
  ("application/gzip", "Compressed"),
  ("application/x-tar", "Compressed"),
  ("application/x-bzip", "Compressed"),
  ("application/x-bzip2", "Compressed"),
  ("application/x-xz", "Compressed"),
  ("application/vnd.openxmlformats-officedocument.spreadsheetml.sheet", "Docs"),
  ("application/vnd.openxmlformats-officedocument.presentationml.presentation", "Docs"),
  ("application/vnd.openxmlformats-officedocument.wordprocessingml.document", "Docs"),
  ("application/vnd.ms-excel", "Docs"),
  ("application/vnd.ms-powerpoint", "Docs"),
  ("application/msword", "Docs"),
  ("application/pdf", "Docs"),
  ("text/html", "Docs"),
  ("text/css", "Misc"),
  ("text/csv", "Docs"),
  ("text/xml", "Docs"),
  ("application/xml", "Docs"),
  ("text/plain", "Docs"),
  ("text/markdown", "Docs"),
  ("application/json", "Misc"),
  ("application/rtf", "Docs"),
  ("text/x-python", "Misc"),
  ("text/x-java", "Misc"),
  ("text/x-c", "Misc"),
  ("text/x-c++", "Misc"),
  ("text/x-rust", "Misc"),
  ("text/javascript", "Misc"),
  ("application/javascript", "Misc"),
  ("application/typescript", "Misc"),
  ("text/x-go", "Misc"),
  ("text/x-php", "Misc"),
  ("text/x-ruby", "Misc"),
  ("text/x-shellscript", "Misc")]

/-- `categorize_file` (`src/cli.rs:452`): exact, case-sensitive lookup in the
fixed table, defaulting to "Misc" for unmapped or absent content types.
(The Rust `HashMap` built from the table has the same lookup behaviour as
first-match association-list lookup because the keys are pairwise distinct.) -/
def categorize_file (mime_type : Option String) : String :=
  match mime_type with
  | some mt => (mime_categories.lookup mt).getD "Misc"
  | none => "Misc"

/-- Decimal digits of `n`, least significant first, with explicit fuel
(`fuel ≥ n` is always enough). Models `format!("{}", n)` digit production. -/
def decDigits : Nat → Nat → List Char
  | 0, _ => []
  | fuel + 1, n => if n = 0 then [] else Nat.digitChar (n % 10) :: decDigits fuel (n / 10)

/-- Decimal rendering of a natural number, as `format!("{}", n)` produces. -/
def natToStr (n : Nat) : String :=
  if n = 0 then "0" else ⟨(decDigits n n).reverse⟩

/-- Split a file name at its last dot, returning the components before and
after it (`none` when there is no dot). -/
def splitAtLastDot : List Char → Option (List Char × List Char)
  | [] => none
  | c :: cs =>
    match splitAtLastDot cs with
    | some (b, a) => some (c :: b, a)
    | none => if c = '.' then some ([], cs) else none

/-- Rust `Path::file_stem` / `Path::extension` on a file name: split at the
last dot, except that a name whose only dot is leading (".config") is all
stem and has no extension. -/
def splitName (name : String) : String × Option String :=
  match splitAtLastDot name.data with
  | some ([], _) => (name, none)
  | some (b, a) => (⟨b⟩, some ⟨a⟩)
  | none => (name, none)

/-- The candidate name `stem_counter` / `stem_counter.ext` built by
`generate_unique_filename` (`src/cli.rs:593`). -/
def mkName (stem : String) (counter : Nat) (ext : Option String) : String :=
  match ext with
  | some e => stem ++ "_" ++ natToStr counter ++ "." ++ e
  | none => stem ++ "_" ++ natToStr counter

/-- The counter loop of `generate_unique_filename` (`src/cli.rs:592`),
with explicit fuel; one more unit of fuel than the number of existing
paths always suffices. -/
def genLoop (fs : FS) (parent : Path) (stem : String) (ext : Option String) :
    Nat → Nat → Option Path
  | _, 0 => none
  | counter, fuel + 1 =>
    let new_path := parent ++ [mkName stem counter ext]
    if fs.pathExists new_path then genLoop fs parent stem ext (counter + 1) fuel
    else some new_path

/-- `generate_unique_filename` (`src/cli.rs:586`): first `stem_N(.ext)`
sibling name, `N = 1, 2, …`, that does not yet exist. The `none` fallbacks
are unreachable: the argument always has a final component in the engine,
and the fuel is provably sufficient. -/
def generate_unique_filename (fs : FS) (path : Path) : Path :=
  match path.getLast? with
  | none => path
  | some name =>
    let parent := path.dropLast
    let se := splitName name
    (genLoop fs parent se.1 se.2 1 (fs.files.length + fs.dirs.length + 1)).getD
      (parent ++ [mkName se.1 1 se.2])

/-- Outcome of `move_file`: `Ok(true)` (moved, with the destination it
resolved), `Ok(false)` (skipped), or `Err(_)` (failed). -/
inductive MoveOutcome where
  | moved (dest : Path)
  | skipped
  | failed
deriving DecidableEq, Repr

/-- The fallible filesystem operations performed by the move engine. -/
inductive FsOp where
  | createDir (p : Path)
  | removeFile (p : Path)
  | rename (src dst : Path)

/-- An error oracle decides which OS calls fail. -/
abbrev ErrOracle := FsOp → Bool

/-- The oracle of a run in which no filesystem operation fails. -/
def noErr : ErrOracle := fun _ => false

/-- `move_file` (`src/cli.rs:543`): resolve the destination under the
conflict policy and perform the move unless `dry_run`. Errors from any
primitive surface as `.failed` with the filesystem as the source leaves it. -/
def move_file (oracle : ErrOracle) (fi : FileInfo) (base_path : Path)
    (conflict : String) (dry_run : Bool) (fs : FS) : MoveOutcome × FS :=
  let category_dir := base_path ++ [fi.category]
  if !dry_run && !(fs.pathExists category_dir) && oracle (.createDir category_dir) then
    (.failed, fs)
  else
    let fs1 := if !dry_run && !(fs.pathExists category_dir) then fs.createDir category_dir else fs
    match fi.path.getLast? with
    | none => (.failed, fs1)
    | some file_name =>
      let destination := category_dir ++ [file_name]
      if fs1.pathExists destination then
        match conflict with
        | "skip" => (.skipped, fs1)
        | "overwrite" =>
          if dry_run then (.moved destination, fs1)
          else if oracle (.removeFile destination) then (.failed, fs1)
          else
            let fs2 := fs1.removeFile destination
            if oracle (.rename fi.path destination) then (.failed, fs2)
            else (.moved destination, fs2.renameFile fi.path destination)
        | "rename" =>
          let new_dest := generate_unique_filename fs1 destination
          if dry_run then (.moved new_dest, fs1)
          else if oracle (.rename fi.path new_dest) then (.failed, fs1)
          else (.moved new_dest, fs1.renameFile fi.path new_dest)
        | _ => (.skipped, fs1)
      else
        if dry_run then (.moved destination, fs1)
        else if oracle (.rename fi.path destination) then (.failed, fs1)
        else (.moved destination, fs1.renameFile fi.path destination)

/-- `OrganizeStats` (`src/cli.rs:56`). -/
structure OrganizeStats where
  total_files : Nat
  moved : Nat
  skipped : Nat
  errors : Nat
deriving DecidableEq, Repr

/-- `CategoryProgress` (`src/tui.rs:481`). -/
structure CategoryProgress where
  count : Nat
  size : Nat
deriving DecidableEq, Repr

/-- The category-progress map as `ProgressApp::new` initialises it
(`src/tui.rs:488`): every category folder present with zero counts. -/
def initCategoryProgress : List (String × CategoryProgress) :=
  catFolders.map (fun c => (c, ⟨0, 0⟩))

/-- `ProgressApp::update_category` (`src/tui.rs:522`): bump the entry for
the category if it is present. -/
def update_category (cp : List (String × CategoryProgress)) (category : String)
    (size : Nat) : List (String × CategoryProgress) :=
  cp.map (fun e => if decide (e.1 = category) then (e.1, ⟨e.2.count + 1, e.2.size + size⟩) else e)

/-- The mutable state of a processing run: statistics, per-category
progress, and the filesystem. -/
structure RunState where
  stats : OrganizeStats
  category_progress : List (String × CategoryProgress)
  fs : FS
deriving DecidableEq, Repr

/-- One iteration of the per-file loop (`src/cli.rs:149` and
`src/cli.rs:287`): invoke the engine and fold the outcome into the
statistics; a moved file also feeds the category progress. -/
def processOne (oracle : ErrOracle) (base_path : Path) (conflict : String)
    (dry_run : Bool) (st : RunState) (fi : FileInfo) : MoveOutcome × RunState :=
  let (outcome, fs') := move_file oracle fi base_path conflict dry_run st.fs
  match outcome with
  | .moved d =>
    (.moved d,
     { st with
        stats := { st.stats with moved := st.stats.moved + 1 },
        category_progress := update_category st.category_progress fi.category fi.size,
        fs := fs' })
  | .skipped =>
    (.skipped, { st with stats := { st.stats with skipped := st.stats.skipped + 1 }, fs := fs' })
  | .failed =>
    (.failed, { st with stats := { st.stats with errors := st.stats.errors + 1 }, fs := fs' })

/-- The per-file loop over a list of scanned files, returning the sequence
of decided outcomes next to the final state. Each file is processed in
turn; no outcome stops the loop. -/
def organizeLoop (oracle : ErrOracle) (base_path : Path) (conflict : String)
    (dry_run : Bool) : List FileInfo → RunState → List MoveOutcome × RunState
  | [], st => ([], st)
  | fi :: rest, st =>
    let (o, st') := processOne oracle base_path conflict dry_run st fi
    let (os, stF) := organizeLoop oracle base_path conflict dry_run rest st'
    (o :: os, stF)

/-- Initial run state: `total_files` is set to the number of scanned files
before the loop starts (`src/cli.rs:147`, `src/cli.rs:278`), the other
counters and every category count start at zero. -/
def initRunState (fs : FS) (total : Nat) : RunState :=
  ⟨⟨total, 0, 0, 0⟩, initCategoryProgress, fs⟩

/-- A whole processing run over a fixed list of scanned files. -/
def run_files (oracle : ErrOracle) (base_path : Path) (conflict : String)
    (dry_run : Bool) (files : List FileInfo) (fs : FS) : List MoveOutcome × RunState :=
  organizeLoop oracle base_path conflict dry_run files (initRunState fs files.length)

/-- The name under which `p` is a direct child of `base`, if it is one. -/
def directChildName (base p : Path) : Option String :=
  if p.length = base.length + 1 && decide (p.take base.length = base) then p.getLast? else none

/-- `scan_directory` with `recursive = false` (`src/cli.rs:396`), read off
the flat filesystem state: every regular file directly inside `base`
becomes a record with sniffed content type, derived category, and size. -/
def scanRootFiles (sniff : String → Option String) (base : Path) (fs : FS) : List FileInfo :=
  fs.files.filterMap (fun e =>
    match directChildName base e.1 with
    | some n => some ⟨e.1, sniff n, categorize_file (sniff n), e.2⟩
    | none => none)

/-- One engine run with policy Skip over a non-recursive scan of the root:
scan the root's regular files, then process them (`organizer_files` with
`recursive = false`, `conflict = "skip"`, no dry run, no errors). -/
def skipRun (sniff : String → Option String) (base_path : Path) (fs : FS) :
    List MoveOutcome × RunState :=
  run_files noErr base_path "skip" false (scanRootFiles sniff base_path fs) fs

/-- A directory's contents, in enumeration order, for the tree-walking
scanner: regular files (name, size) and subdirectories (name, contents). -/
inductive EntryList where
  | nil : EntryList
  | fileEntry (name : String) (size : Nat) (rest : EntryList) : EntryList
  | dirEntry (name : String) (sub : EntryList) (rest : EntryList) : EntryList
deriving DecidableEq, Repr

/-- The subdirectory entries of a directory listing. -/
def EntryList.dirsOf : EntryList → List (String × EntryList)
  | .nil => []
  | .fileEntry _ _ rest => rest.dirsOf
  | .dirEntry n sub rest => (n, sub) :: rest.dirsOf

/-- `scan_directory_recursive` (`src/cli.rs:415`) over a directory tree:
files become records; a subdirectory is descended into exactly when
`recursive` is set and its name is not a category folder name. The second
component records the path of every directory descended into. -/
def scanTree (sniff : String → Option String) (recursive : Bool) (cur : Path) :
    EntryList → List FileInfo × List Path
  | .nil => ([], [])
  | .fileEntry n sz rest =>
    let tail := scanTree sniff recursive cur rest
    (⟨cur ++ [n], sniff n, categorize_file (sniff n), sz⟩ :: tail.1, tail.2)
  | .dirEntry n sub rest =>
    let tail := scanTree sniff recursive cur rest
    if recursive && !(catFolders.contains n) then
      let inner := scanTree sniff recursive (cur ++ [n]) sub
      (inner.1 ++ tail.1, (cur ++ [n]) :: (inner.2 ++ tail.2))
    else tail

/-- The key codes the preview loop distinguishes (`src/tui.rs:87`). -/
inductive KeyCode where
  | char (c : Char)
  | esc
  | enter
  | left
  | right
  | up
  | down
  | other
deriving DecidableEq, Repr

/-- The mutable state of `PreviewApp::run_loop` (`src/tui.rs:74`):
`selected_category = none` is the Overview screen, `some i` the
CategoryDetail screen for category `i`; `last_was_esc_back` is the local
flag tracking whether the previous key was the Esc that went back. -/
structure PreviewState where
  selected_category : Option Nat
  scroll_offset : Nat
  last_was_esc_back : Bool
deriving DecidableEq, Repr

/-- Result of handling one key event: continue the loop in a new state, or
leave it cancelled (`should_quit = true`) or proceeding. -/
inductive StepResult where
  | cont (s : PreviewState)
  | exitCancelled
  | exitProceed
deriving DecidableEq, Repr

/-- `self.categories.len()` in the preview app: the four fixed categories. -/
def previewCategories : Nat := 4

/-- One iteration of the key-event match in `PreviewApp::run_loop`
(`src/tui.rs:83`), including the leading reset of the Esc-tracking flag on
any non-Esc key. -/
def previewStep (s0 : PreviewState) (k : KeyCode) : StepResult :=
  let s := if k = .esc then s0 else { s0 with last_was_esc_back := false }
  match k with
  | .char c =>
    if c = 'q' then .exitCancelled
    else if c.isDigit then
      if s.selected_category.isNone then
        let digit := c.toNat - '0'.toNat
        if decide (0 < digit) && decide (digit ≤ previewCategories) then
          .cont { s with selected_category := some (digit - 1), scroll_offset := 0 }
        else .cont s
      else .cont s
    else .cont s
  | .esc =>
    match s.selected_category with
    | some _ => .cont { selected_category := none, scroll_offset := 0, last_was_esc_back := true }
    | none =>
      if s.last_was_esc_back then .cont { s with last_was_esc_back := false }
      else .exitCancelled
  | .enter => if s.selected_category.isNone then .exitProceed else .cont s
  | .left => .cont (if s.selected_category.isSome then { s with scroll_offset := s.scroll_offset - 1 } else s)
  | .up => .cont (if s.selected_category.isSome then { s with scroll_offset := s.scroll_offset - 1 } else s)
  | .right => .cont (if s.selected_category.isSome then { s with scroll_offset := s.scroll_offset + 1 } else s)
  | .down => .cont (if s.selected_category.isSome then { s with scroll_offset := s.scroll_offset + 1 } else s)
  | .other => .cont s

/-- How the preview ends: Enter in Overview proceeds, a quit sets
`should_quit` (cancelled); with no further events the loop keeps polling. -/
inductive PreviewResult where
  | proceeded
  | cancelled
  | pending (s : PreviewState)
deriving DecidableEq, Repr

/-- The preview key loop over a sequence of received key events. -/
def runPreview : PreviewState → List KeyCode → PreviewResult
  | s, [] => .pending s
  | s, k :: ks =>
    match previewStep s k with
    | .cont s' => runPreview s' ks
    | .exitCancelled => .cancelled
    | .exitProceed => .proceeded

/-- The state `PreviewApp::run_loop` starts in: Overview, no scroll, flag
clear. -/
def initPreviewState : PreviewState := ⟨none, 0, false⟩

/-- Whether an outcome is a move (`Ok(true)` in the source). -/
def MoveOutcome.isMoved : MoveOutcome → Bool
  | .moved _ => true
  | _ => false

/-- Whether an outcome is a skip (`Ok(false)` in the source). -/
def MoveOutcome.isSkipped : MoveOutcome → Bool
  | .skipped => true
  | _ => false

/-- Whether an outcome is a failure (`Err(_)` in the source). -/
def MoveOutcome.isFailed : MoveOutcome → Bool
  | .failed => true
  | _ => false

/-! ## General lemmas about the filesystem model -/

theorem FS.pathExists_of_mem_dirs {fs : FS} {p : Path} (h : p ∈ fs.dirs) :
    fs.pathExists p = true := by
  simp only [FS.pathExists, Bool.or_eq_true, List.any_eq_true, decide_eq_true_eq]
  exact Or.inr ⟨p, h, rfl⟩

theorem FS.pathExists_of_mem_files {fs : FS} {p : Path} {c : Nat} (h : (p, c) ∈ fs.files) :
    fs.pathExists p = true := by
  simp only [FS.pathExists, Bool.or_eq_true, List.any_eq_true, decide_eq_true_eq]
  exact Or.inl ⟨(p, c), h, rfl⟩

theorem FS.pathExists_iff {fs : FS} {p : Path} :
    fs.pathExists p = true ↔ ((∃ c, (p, c) ∈ fs.files) ∨ p ∈ fs.dirs) := by
  simp only [FS.pathExists, Bool.or_eq_true, List.any_eq_true, decide_eq_true_eq]
  constructor
  · rintro (⟨⟨q, c⟩, hm, hq⟩ | ⟨d, hd, hdp⟩)
    · exact Or.inl ⟨c, hq ▸ hm⟩
    · exact Or.inr (hdp ▸ hd)
  · rintro (⟨c, hm⟩ | hd)
    · exact Or.inl ⟨(p, c), hm, rfl⟩
    · exact Or.inr ⟨p, hd, rfl⟩

/-! ## C4: the classification table -/

theorem lookup_eq_none_of_no_key {l : List (String × String)} {s : String}
    (h : ∀ p ∈ l, p.1 ≠ s) : l.lookup s = none := by
  induction l with
  | nil => rfl
  | cons hd tl ih =>
    obtain ⟨k, v⟩ := hd
    have hk : k ≠ s := h (k, v) (List.mem_cons_self _ _)
    have hks : (s == k) = false := by
      simp only [beq_eq_false_iff_ne, ne_eq]
      exact fun hs => hk hs.symm
    simp only [List.lookup, hks]
    exact ih (fun p hp => h p (List.mem_cons_of_mem _ hp))

/-- C4: every content-type string present in the fixed classification table
is mapped by `categorize_file` to the category recorded there; every string
absent from the table, and the no-content-type input, yield "Misc"; the
match is exact, case-sensitive string equality. -/
theorem categorize_file_table :
    (∀ p ∈ mime_categories, categorize_file (some p.1) = p.2) ∧
    (∀ s : String, (∀ p ∈ mime_categories, p.1 ≠ s) → categorize_file (some s) = "Misc") ∧
    categorize_file none = "Misc" := by
  refine ⟨by decide, ?_, rfl⟩
  intro s hs
  simp only [categorize_file, lookup_eq_none_of_no_key hs, Option.getD_none]

/-- Witness for C4: "text/plain" is in the table and classifies as "Docs";
the upper-cased variant "TEXT/PLAIN" is absent and classifies as "Misc"
(case sensitivity). -/
theorem categorize_file_table_witness :
    ((∀ p ∈ FileOrg.mime_categories, p.1 ≠ "TEXT/PLAIN") ∧
      categorize_file (some "TEXT/PLAIN") = "Misc") ∧
    categorize_file (some "text/plain") = "Docs" :=
  ⟨⟨by decide, categorize_file_table.2.1 "TEXT/PLAIN" (by decide)⟩,
    categorize_file_table.1 ("text/plain", "Docs") (by decide)⟩

/-! ## C9: Skip leaves the filesystem untouched -/

/-- C9: under policy Skip, for a file whose destination already exists (in
a well-formed state where the category directory containing it exists),
the engine reports Skipped and performs no filesystem mutation at all,
whatever the error oracle: the returned state is exactly the input state. -/
theorem skip_existing_no_mutation (oracle : ErrOracle) (fi : FileInfo) (base_path : Path)
    (fs : FS) (name : String)
    (hname : fi.path.getLast? = some name)
    (hdir : (base_path ++ [fi.category]) ∈ fs.dirs)
    (hdest : fs.pathExists (base_path ++ [fi.category, name]) = true) :
    move_file oracle fi base_path "skip" false fs = (.skipped, fs) := by
  have hdirEx : fs.pathExists (base_path ++ [fi.category]) = true :=
    FS.pathExists_of_mem_dirs hdir
  simp [move_file, hname, hdirEx, hdest]

/-- Witness for C9 at a concrete state: `a.txt` with `Docs/a.txt` already
present is skipped and the state is returned unchanged. -/
theorem skip_existing_no_mutation_witness :
    ((⟨["a.txt"], some "text/plain", "Docs", 1⟩ : FileInfo).path.getLast? = some "a.txt" ∧
      ["Docs"] ∈ (⟨[(["a.txt"], 1), (["Docs", "a.txt"], 2)], [["Docs"]]⟩ : FS).dirs ∧
      (⟨[(["a.txt"], 1), (["Docs", "a.txt"], 2)], [["Docs"]]⟩ : FS).pathExists ["Docs", "a.txt"] = true) ∧
    move_file noErr ⟨["a.txt"], some "text/plain", "Docs", 1⟩ [] "skip" false
        ⟨[(["a.txt"], 1), (["Docs", "a.txt"], 2)], [["Docs"]]⟩ =
      (.skipped, ⟨[(["a.txt"], 1), (["Docs", "a.txt"], 2)], [["Docs"]]⟩) :=
  ⟨⟨rfl, by decide, by decide⟩,
    skip_existing_no_mutation noErr ⟨["a.txt"], some "text/plain", "Docs", 1⟩ []
      ⟨[(["a.txt"], 1), (["Docs", "a.txt"], 2)], [["Docs"]]⟩ "a.txt" rfl (by decide) (by decide)⟩

/-! ## C8: the preview key loop -/

/-- C8 counterexample: after entering CategoryDetail with digit 1 and going
back with Esc, a further Esc in Overview does not cancel — the loop keeps
running (the `last_was_esc_back` debounce swallows it), contradicting the
claim that a cancel (Esc) in Overview always ends the preview cancelled. -/
theorem preview_esc_after_back_not_cancelled :
    runPreview initPreviewState [.char '1', .esc, .esc] = .pending ⟨none, 0, false⟩ ∧
    runPreview initPreviewState [.char '1', .esc, .esc] ≠ .cancelled := by
  constructor
  · decide
  · decide

/-- C8 amended: the preview loop realises the transition table, except
that an Esc in Overview cancels only when the immediately preceding key
was not the Esc that went back from CategoryDetail; that one following Esc
is swallowed (clearing the debounce flag). In detail: a digit 1–4 in
Overview enters CategoryDetail; Esc in CategoryDetail returns to Overview
and the loop continues (never exits); Enter in Overview proceeds; `q`
always cancels; Esc in Overview cancels when the debounce flag is clear
and is ignored once when it is set. -/
theorem preview_transition_table :
    (∀ (s : PreviewState) (c : Char), s.selected_category = none → c.isDigit = true →
      0 < c.toNat - '0'.toNat → c.toNat - '0'.toNat ≤ previewCategories →
      previewStep s (.char c) = .cont ⟨some (c.toNat - '0'.toNat - 1), 0, false⟩) ∧
    (∀ (s : PreviewState) (i : Nat) (ks : List KeyCode), s.selected_category = some i →
      runPreview s (.esc :: ks) = runPreview ⟨none, 0, true⟩ ks) ∧
    (∀ s : PreviewState, s.selected_category = none → previewStep s .enter = .exitProceed) ∧
    (∀ s : PreviewState, previewStep s (.char 'q') = .exitCancelled) ∧
    (∀ s : PreviewState, s.selected_category = none → s.last_was_esc_back = false →
      previewStep s .esc = .exitCancelled) ∧
    (∀ s : PreviewState, s.selected_category = none → s.last_was_esc_back = true →
      previewStep s .esc = .cont ⟨none, s.scroll_offset, false⟩) := by
  refine ⟨?_, ?_, ?_, ?_, ?_, ?_⟩
  · rintro ⟨sel, sc, fl⟩ c hsel hdig h1 h2
    subst hsel
    have hq : ¬(c = 'q') := by
      rintro rfl
      simp at hdig
    simp only [previewStep, reduceCtorEq, if_false]
    rw [if_neg hq, if_pos hdig]
    simp only [Option.isNone_none, if_pos rfl]
    have h0 : '0'.toNat = 48 := by decide
    rw [h0] at h1 h2
    simp only [previewCategories] at h2 ⊢
    simp
    omega
  · rintro ⟨sel, sc, fl⟩ i ks hsel
    subst hsel
    simp [runPreview, previewStep]
  · rintro ⟨sel, sc, fl⟩ hsel
    subst hsel
    simp [previewStep]
  · rintro ⟨sel, sc, fl⟩
    simp [previewStep]
  · rintro ⟨sel, sc, fl⟩ hsel hfl
    subst hsel; subst hfl
    simp [previewStep]
  · rintro ⟨sel, sc, fl⟩ hsel hfl
    subst hsel; subst hfl
    simp [previewStep]

/-- Witness for C8's amended transition table at concrete states. -/
theorem preview_transition_table_witness :
    previewStep initPreviewState (.char '2') = .cont ⟨some 1, 0, false⟩ ∧
    runPreview ⟨some 0, 3, false⟩ [.esc] = runPreview ⟨none, 0, true⟩ [] ∧
    previewStep initPreviewState .enter = .exitProceed ∧
    previewStep ⟨some 2, 1, false⟩ (.char 'q') = .exitCancelled ∧
    previewStep initPreviewState .esc = .exitCancelled ∧
    previewStep ⟨none, 5, true⟩ .esc = .cont ⟨none, 5, false⟩ :=
  ⟨preview_transition_table.1 initPreviewState '2' rfl (by decide) (by decide) (by decide),
   preview_transition_table.2.1 ⟨some 0, 3, false⟩ 0 [] rfl,
   preview_transition_table.2.2.1 initPreviewState rfl,
   preview_transition_table.2.2.2.1 ⟨some 2, 1, false⟩,
   preview_transition_table.2.2.2.2.1 initPreviewState rfl rfl,
   preview_transition_table.2.2.2.2.2 ⟨none, 5, true⟩ rfl rfl⟩

/-! ## C6: which subdirectories the scanner descends into -/

theorem scanTree_visited_length {sniff : String → Option String} {r : Bool} :
    ∀ (es : EntryList) (cur p : Path), p ∈ (scanTree sniff r cur es).2 → cur.length < p.length := by
  intro es
  induction es with
  | nil => intro cur p hp; simp [scanTree] at hp
  | fileEntry n sz rest ih =>
    intro cur p hp
    exact ih cur p (by simpa [scanTree] using hp)
  | dirEntry n sub rest ihsub ihrest =>
    intro cur p hp
    simp only [scanTree] at hp
    by_cases hc : (r && !(catFolders.contains n)) = true
    · rw [if_pos hc] at hp
      simp only [List.mem_cons, List.mem_append] at hp
      rcases hp with rfl | hp | hp
      · simp
      · have := ihsub (cur ++ [n]) p hp
        simp only [List.length_append, List.length_singleton] at this
        omega
      · exact ihrest cur p hp
    · rw [if_neg hc] at hp
      exact ihrest cur p hp

theorem scanTree_visited_direct {sniff : String → Option String} {r : Bool} :
    ∀ (es : EntryList) (cur : Path) (n : String),
      (cur ++ [n]) ∈ (scanTree sniff r cur es).2 →
      r = true ∧ catFolders.contains n = false := by
  intro es
  induction es with
  | nil => intro cur n hp; simp [scanTree] at hp
  | fileEntry n' sz rest ih =>
    intro cur n hp
    exact ih cur n (by simpa [scanTree] using hp)
  | dirEntry n' sub rest ihsub ihrest =>
    intro cur n hp
    simp only [scanTree] at hp
    by_cases hc : (r && !(catFolders.contains n')) = true
    · rw [if_pos hc] at hp
      simp only [List.mem_cons, List.mem_append] at hp
      rcases hp with heq | hp | hp
      · have hn : n = n' := by
          have := List.append_cancel_left heq
          simpa using this
        subst hn
        simpa [Bool.and_eq_true, Bool.not_eq_true'] using hc
      · have := scanTree_visited_length sub (cur ++ [n']) (cur ++ [n]) hp
        simp at this
      · exact ihrest cur n hp
    · rw [if_neg hc] at hp
      exact ihrest cur n hp

theorem scanTree_descends {sniff : String → Option String} :
    ∀ (es : EntryList) (cur : Path) (name : String) (sub : EntryList),
      (name, sub) ∈ es.dirsOf → catFolders.contains name = false →
      (cur ++ [name]) ∈ (scanTree sniff true cur es).2 := by
  intro es
  induction es with
  | nil => intro cur name sub hmem; simp [EntryList.dirsOf] at hmem
  | fileEntry n' sz rest ih =>
    intro cur name sub hmem hcat
    simp only [EntryList.dirsOf] at hmem
    simpa [scanTree] using ih cur name sub hmem hcat
  | dirEntry n' sub' rest ihsub ihrest =>
    intro cur name sub hmem hcat
    simp only [EntryList.dirsOf, List.mem_cons] at hmem
    rcases hmem with heq | hmem
    · obtain ⟨rfl, rfl⟩ := Prod.mk.injEq .. ▸ heq
      have hnotmem : ¬ name ∈ catFolders := by simpa using hcat
      simp [scanTree, hnotmem]
    · by_cases hc : (true && !(catFolders.contains n')) = true
      · simp only [scanTree]
        rw [if_pos hc]
        simp only [List.mem_cons, List.mem_append]
        exact Or.inr (Or.inr (ihrest cur name sub hmem hcat))
      · simp only [scanTree]
        rw [if_neg hc]
        exact ihrest cur name sub hmem hcat

/-- C6: the scanner descends into a subdirectory entry if and only if the
recursive flag is set and the subdirectory's name is not one of the four
category folder names ("Multimedia", "Docs", "Compressed", "Misc"); in
particular with `recursive = false` nothing is descended into, and a
directory named "Misc" is never descended into. -/
theorem scan_descends_iff (sniff : String → Option String) (r : Bool) (cur : Path)
    (es : EntryList) (name : String) (sub : EntryList)
    (hmem : (name, sub) ∈ es.dirsOf) :
    ((cur ++ [name]) ∈ (scanTree sniff r cur es).2) ↔
      (r = true ∧ catFolders.contains name = false) := by
  constructor
  · exact fun h => scanTree_visited_direct es cur name h
  · rintro ⟨rfl, hcat⟩
    exact scanTree_descends es cur name sub hmem hcat

/-- Witness for C6: at the root, a `Misc` directory left over from a prior
run is not descended into even with `recursive = true`, while a `photos`
directory is. -/
theorem scan_descends_iff_witness :
    (("Misc", EntryList.fileEntry "x.png" 1 .nil) ∈
        (EntryList.dirEntry "Misc" (.fileEntry "x.png" 1 .nil)
          (.dirEntry "photos" (.fileEntry "y.png" 2 .nil) .nil)).dirsOf ∧
      ¬ (([] : Path) ++ ["Misc"]) ∈
        (scanTree (fun _ => none) true []
          (EntryList.dirEntry "Misc" (.fileEntry "x.png" 1 .nil)
            (.dirEntry "photos" (.fileEntry "y.png" 2 .nil) .nil))).2) ∧
    (("photos", EntryList.fileEntry "y.png" 2 .nil) ∈
        (EntryList.dirEntry "Misc" (.fileEntry "x.png" 1 .nil)
          (.dirEntry "photos" (.fileEntry "y.png" 2 .nil) .nil)).dirsOf ∧
      (([] : Path) ++ ["photos"]) ∈
        (scanTree (fun _ => none) true []
          (EntryList.dirEntry "Misc" (.fileEntry "x.png" 1 .nil)
            (.dirEntry "photos" (.fileEntry "y.png" 2 .nil) .nil))).2) :=
  ⟨⟨by decide, fun h => by
      have := (scan_descends_iff (fun _ => none) true []
        (EntryList.dirEntry "Misc" (.fileEntry "x.png" 1 .nil)
          (.dirEntry "photos" (.fileEntry "y.png" 2 .nil) .nil)) "Misc"
        (.fileEntry "x.png" 1 .nil) (by decide)).mp h
      exact absurd this.2 (by decide)⟩,
    ⟨by decide,
      (scan_descends_iff (fun _ => none) true []
        (EntryList.dirEntry "Misc" (.fileEntry "x.png" 1 .nil)
          (.dirEntry "photos" (.fileEntry "y.png" 2 .nil) .nil)) "photos"
        (.fileEntry "y.png" 2 .nil) (by decide)).mpr ⟨rfl, by decide⟩⟩⟩

/-! ## Decimal rendering and its injectivity -/

theorem decDigits_eq (n : Nat) :
    ∀ fuel, n ≤ fuel → decDigits fuel n = (Nat.digits 10 n).map Nat.digitChar := by
  induction n using Nat.strong_induction_on with
  | _ n ih =>
    intro fuel hf
    match fuel with
    | 0 =>
      have hn : n = 0 := Nat.le_zero.mp hf
      subst hn
      simp [decDigits]
    | f + 1 =>
      by_cases hn : n = 0
      · subst hn
        simp [decDigits]
      · have hdiv : n / 10 < n := Nat.div_lt_self (Nat.pos_of_ne_zero hn) (by norm_num)
        have hle : n / 10 ≤ f := by omega
        rw [show decDigits (f + 1) n =
              if n = 0 then [] else Nat.digitChar (n % 10) :: decDigits f (n / 10) from rfl,
            if_neg hn, ih (n / 10) hdiv f hle,
            Nat.digits_def' (by norm_num : (1 : Nat) < 10) (Nat.pos_of_ne_zero hn)]
        simp

theorem digitChar_inj_lt : ∀ a, a < 10 → ∀ b, b < 10 → Nat.digitChar a = Nat.digitChar b → a = b := by
  decide

theorem map_digitChar_inj :
    ∀ (l₁ l₂ : List Nat), (∀ x ∈ l₁, x < 10) → (∀ x ∈ l₂, x < 10) →
      l₁.map Nat.digitChar = l₂.map Nat.digitChar → l₁ = l₂ := by
  intro l₁
  induction l₁ with
  | nil =>
    intro l₂ _ _ h
    cases l₂ with
    | nil => rfl
    | cons b bs => simp at h
  | cons a as ih =>
    intro l₂ h₁ h₂ h
    cases l₂ with
    | nil => simp at h
    | cons b bs =>
      simp only [List.map_cons, List.cons.injEq] at h
      have ha : a < 10 := h₁ a (List.mem_cons_self _ _)
      have hb : b < 10 := h₂ b (List.mem_cons_self _ _)
      have hab : a = b := digitChar_inj_lt a ha b hb h.1
      have : as = bs :=
        ih bs (fun x hx => h₁ x (List.mem_cons_of_mem _ hx))
          (fun x hx => h₂ x (List.mem_cons_of_mem _ hx)) h.2
      rw [hab, this]

theorem string_data_inj {s t : String} (h : s.data = t.data) : s = t := by
  cases s
  cases t
  exact congrArg String.mk h

theorem natToStr_injective : Function.Injective natToStr := by
  intro m n h
  by_cases hm : m = 0 <;> by_cases hn : n = 0
  · omega
  · exfalso
    subst hm
    have hdata : (natToStr 0).data = (natToStr n).data := congrArg String.data h
    rw [show natToStr 0 = "0" from rfl] at hdata
    rw [show natToStr n = ⟨(decDigits n n).reverse⟩ from by simp [natToStr, hn]] at hdata
    rw [decDigits_eq n n le_rfl] at hdata
    have hrev : (Nat.digits 10 n).map Nat.digitChar = ['0'] := by
      have := congrArg List.reverse hdata
      simpa using this.symm
    have hdig : Nat.digits 10 n = [0] := by
      refine map_digitChar_inj _ [0] (fun x hx => Nat.digits_lt_base (by norm_num) hx) ?_ ?_
      · intro x hx
        simp at hx
        omega
      · simpa using hrev
    have := Nat.ofDigits_digits 10 n
    rw [hdig] at this
    simp [Nat.ofDigits] at this
    exact hn this.symm
  · exfalso
    subst hn
    have hdata : (natToStr m).data = (natToStr 0).data := congrArg String.data h
    rw [show natToStr 0 = "0" from rfl] at hdata
    rw [show natToStr m = ⟨(decDigits m m).reverse⟩ from by simp [natToStr, hm]] at hdata
    rw [decDigits_eq m m le_rfl] at hdata
    have hrev : (Nat.digits 10 m).map Nat.digitChar = ['0'] := by
      have := congrArg List.reverse hdata
      simpa using this
    have hdig : Nat.digits 10 m = [0] := by
      refine map_digitChar_inj _ [0] (fun x hx => Nat.digits_lt_base (by norm_num) hx) ?_ ?_
      · intro x hx
        simp at hx
        omega
      · simpa using hrev
    have := Nat.ofDigits_digits 10 m
    rw [hdig] at this
    simp [Nat.ofDigits] at this
    exact hm this.symm
  · have hdata : (natToStr m).data = (natToStr n).data := congrArg String.data h
    rw [show natToStr m = ⟨(decDigits m m).reverse⟩ from by simp [natToStr, hm],
        show natToStr n = ⟨(decDigits n n).reverse⟩ from by simp [natToStr, hn],
        decDigits_eq m m le_rfl, decDigits_eq n n le_rfl] at hdata
    have hmap : (Nat.digits 10 m).map Nat.digitChar = (Nat.digits 10 n).map Nat.digitChar := by
      have := congrArg List.reverse hdata
      simpa using this
    have hdig : Nat.digits 10 m = Nat.digits 10 n :=
      map_digitChar_inj _ _ (fun x hx => Nat.digits_lt_base (by norm_num) hx)
        (fun x hx => Nat.digits_lt_base (by norm_num) hx) hmap
    exact Nat.digits_inj_iff.mp hdig

theorem mkName_inj (stem : String) (ext : Option String) {m n : Nat}
    (h : mkName stem m ext = mkName stem n ext) : m = n := by
  apply natToStr_injective
  apply string_data_inj
  have hdata := congrArg String.data h
  cases ext with
  | none =>
    simp only [mkName, String.data_append, List.append_assoc] at hdata
    exact List.append_cancel_left (List.append_cancel_left hdata)
  | some e =>
    simp only [mkName, String.data_append, List.append_assoc] at hdata
    have h1 := List.append_cancel_left (List.append_cancel_left hdata)
    rw [← List.append_assoc, ← List.append_assoc] at h1
    have h2 := List.append_cancel_right h1
    exact List.append_cancel_right h2

theorem cand_inj (parent : Path) (stem : String) (ext : Option String) {m n : Nat}
    (h : parent ++ [mkName stem m ext] = parent ++ [mkName stem n ext]) : m = n := by
  have := List.append_cancel_left h
  simp only [List.cons.injEq, and_true] at this
  exact mkName_inj stem ext this

/-! ## The unique-filename search finds the least free counter -/

theorem pathExists_mem_allPaths {fs : FS} {p : Path} (h : fs.pathExists p = true) :
    p ∈ fs.files.map Prod.fst ++ fs.dirs := by
  rcases FS.pathExists_iff.mp h with ⟨c, hm⟩ | hd
  · exact List.mem_append_left _ (List.mem_map.mpr ⟨(p, c), hm, rfl⟩)
  · exact List.mem_append_right _ hd

theorem exists_free_counter (fs : FS) (parent : Path) (stem : String) (ext : Option String) :
    ∃ N, 1 ≤ N ∧ N ≤ fs.files.length + fs.dirs.length + 1 ∧
      fs.pathExists (parent ++ [mkName stem N ext]) = false := by
  by_contra hcon
  push_neg at hcon
  set K := fs.files.length + fs.dirs.length with hK
  have hall : ∀ N, 1 ≤ N → N ≤ K + 1 → fs.pathExists (parent ++ [mkName stem N ext]) = true := by
    intro N h1 h2
    have := hcon N h1 h2
    simpa using this
  have hinj : Function.Injective (fun i : Nat => parent ++ [mkName stem (i + 1) ext]) := by
    intro i j hij
    have := cand_inj parent stem ext hij
    omega
  have hsub : (Finset.range (K + 1)).image (fun i => parent ++ [mkName stem (i + 1) ext]) ⊆
      (fs.files.map Prod.fst ++ fs.dirs).toFinset := by
    intro p hp
    simp only [Finset.mem_image, Finset.mem_range] at hp
    obtain ⟨i, hi, rfl⟩ := hp
    rw [List.mem_toFinset]
    exact pathExists_mem_allPaths (hall (i + 1) (by omega) (by omega))
  have hcard := Finset.card_le_card hsub
  rw [Finset.card_image_of_injective _ hinj, Finset.card_range] at hcard
  have hlen : (fs.files.map Prod.fst ++ fs.dirs).toFinset.card ≤ K := by
    calc (fs.files.map Prod.fst ++ fs.dirs).toFinset.card
        ≤ (fs.files.map Prod.fst ++ fs.dirs).length := List.toFinset_card_le _
      _ = K := by simp [hK]
  omega

theorem genLoop_spec (fs : FS) (parent : Path) (stem : String) (ext : Option String) :
    ∀ (fuel start : Nat),
      (∃ N, start ≤ N ∧ N < start + fuel ∧ fs.pathExists (parent ++ [mkName stem N ext]) = false) →
      ∃ N, start ≤ N ∧ fs.pathExists (parent ++ [mkName stem N ext]) = false ∧
        (∀ m, start ≤ m → m < N → fs.pathExists (parent ++ [mkName stem m ext]) = true) ∧
        genLoop fs parent stem ext start fuel = some (parent ++ [mkName stem N ext]) := by
  intro fuel
  induction fuel with
  | zero =>
    intro start h
    obtain ⟨N, h1, h2, _⟩ := h
    omega
  | succ f ih =>
    intro start h
    by_cases hstart : fs.pathExists (parent ++ [mkName stem start ext]) = true
    · obtain ⟨N, hN1, hN2, hN3⟩ := h
      have hNs : N ≠ start := by
        intro he
        rw [he, hstart] at hN3
        exact absurd hN3 (by simp)
      have hex : ∃ N, start + 1 ≤ N ∧ N < (start + 1) + f ∧
          fs.pathExists (parent ++ [mkName stem N ext]) = false :=
        ⟨N, by omega, by omega, hN3⟩
      obtain ⟨N', h1, h2, h3, h4⟩ := ih (start + 1) hex
      refine ⟨N', by omega, h2, ?_, ?_⟩
      · intro m hm1 hm2
        rcases Nat.eq_or_lt_of_le hm1 with he | hlt
        · exact he ▸ hstart
        · exact h3 m hlt hm2
      · rw [show genLoop fs parent stem ext start (f + 1) =
            (if fs.pathExists (parent ++ [mkName stem start ext]) then
              genLoop fs parent stem ext (start + 1) f
            else some (parent ++ [mkName stem start ext])) from rfl,
          if_pos hstart]
        exact h4
    · have hfalse : fs.pathExists (parent ++ [mkName stem start ext]) = false := by
        simpa using hstart
      refine ⟨start, le_rfl, hfalse, fun m hm1 hm2 => by omega, ?_⟩
      rw [show genLoop fs parent stem ext start (f + 1) =
          (if fs.pathExists (parent ++ [mkName stem start ext]) then
            genLoop fs parent stem ext (start + 1) f
          else some (parent ++ [mkName stem start ext])) from rfl]
      simp [hfalse]

/-- The characterisation of `generate_unique_filename` shared by the
claims: on a path with a final component it returns the sibling name with
the least counter `N ≥ 1` that does not yet exist. -/
theorem generate_unique_spec (fs : FS) (parent' : Path) (nm : String) :
    ∃ N, 1 ≤ N ∧
      fs.pathExists (parent' ++ [mkName (splitName nm).1 N (splitName nm).2]) = false ∧
      (∀ m, 1 ≤ m → m < N →
        fs.pathExists (parent' ++ [mkName (splitName nm).1 m (splitName nm).2]) = true) ∧
      generate_unique_filename fs (parent' ++ [nm]) =
        parent' ++ [mkName (splitName nm).1 N (splitName nm).2] := by
  obtain ⟨N0, hN1, hN2, hN3⟩ := exists_free_counter fs parent' (splitName nm).1 (splitName nm).2
  obtain ⟨N, h1, h2, h3, h4⟩ := genLoop_spec fs parent' (splitName nm).1 (splitName nm).2
    (fs.files.length + fs.dirs.length + 1) 1 ⟨N0, hN1, by omega, hN3⟩
  refine ⟨N, h1, h2, h3, ?_⟩
  rw [generate_unique_filename]
  rw [List.getLast?_concat, List.dropLast_concat]
  simp only [h4, Option.getD_some]

/-! ## C10: termination and minimality of `generate_unique_filename` -/

/-- C10: for every input path with a parent and a final name component,
over the (finite) filesystem state, `generate_unique_filename` returns the
path whose name is `stem_N` (extension preserved after the counter) for
the smallest counter `N ≥ 1` that does not already exist in the parent
directory; in particular the search terminates with a result. -/
theorem generate_unique_filename_least (fs : FS) (parent' : Path) (nm : String) :
    ∃ N, 1 ≤ N ∧
      fs.pathExists (parent' ++ [mkName (splitName nm).1 N (splitName nm).2]) = false ∧
      (∀ m, 1 ≤ m → m < N →
        fs.pathExists (parent' ++ [mkName (splitName nm).1 m (splitName nm).2]) = true) ∧
      generate_unique_filename fs (parent' ++ [nm]) =
        parent' ++ [mkName (splitName nm).1 N (splitName nm).2] :=
  generate_unique_spec fs parent' nm

/-! ## C3: the Rename policy -/

theorem rename_never_skips (oracle : ErrOracle) (fi : FileInfo) (base_path : Path)
    (dry_run : Bool) (fs : FS) :
    (move_file oracle fi base_path "rename" dry_run fs).1 ≠ MoveOutcome.skipped := by
  rcases hname : fi.path.getLast? with _ | name
  all_goals simp only [move_file, hname]
  all_goals repeat' split
  all_goals simp_all

theorem rename_reduces (fi : FileInfo) (base_path : Path) (fs : FS) (name : String)
    (hname : fi.path.getLast? = some name)
    (hdir : (base_path ++ [fi.category]) ∈ fs.dirs)
    (hdest : fs.pathExists (base_path ++ [fi.category, name]) = true) :
    move_file noErr fi base_path "rename" false fs =
      (.moved (generate_unique_filename fs ((base_path ++ [fi.category]) ++ [name])),
       fs.renameFile fi.path (generate_unique_filename fs ((base_path ++ [fi.category]) ++ [name]))) := by
  have hdirEx : fs.pathExists (base_path ++ [fi.category]) = true :=
    FS.pathExists_of_mem_dirs hdir
  simp [move_file, hname, hdirEx, hdest, noErr]

/-- C3: under policy Rename, when the destination exists (in a state whose
category directory exists, as on a real filesystem), an error-free engine
resolves the first `stem_N(.ext)` name not yet present, moves the file
there, and reports Moved; and under policy Rename the engine never reports
Skipped, for any oracle, file, state or dry-run flag. -/
theorem rename_policy_unique (fi : FileInfo) (base_path : Path) (fs : FS) (name : String)
    (hname : fi.path.getLast? = some name)
    (hdir : (base_path ++ [fi.category]) ∈ fs.dirs)
    (hdest : fs.pathExists (base_path ++ [fi.category, name]) = true) :
    (∀ (o : ErrOracle) (g : FileInfo) (b : Path) (d : Bool) (s : FS),
        (move_file o g b "rename" d s).1 ≠ MoveOutcome.skipped) ∧
    ∃ N, 1 ≤ N ∧
      fs.pathExists ((base_path ++ [fi.category]) ++
        [mkName (splitName name).1 N (splitName name).2]) = false ∧
      (∀ m, 1 ≤ m → m < N →
        fs.pathExists ((base_path ++ [fi.category]) ++
          [mkName (splitName name).1 m (splitName name).2]) = true) ∧
      move_file noErr fi base_path "rename" false fs =
        (.moved ((base_path ++ [fi.category]) ++
            [mkName (splitName name).1 N (splitName name).2]),
         fs.renameFile fi.path ((base_path ++ [fi.category]) ++
            [mkName (splitName name).1 N (splitName name).2])) := by
  refine ⟨fun o g b d s => rename_never_skips o g b d s, ?_⟩
  obtain ⟨N, h1, h2, h3, h4⟩ := generate_unique_spec fs (base_path ++ [fi.category]) name
  exact ⟨N, h1, h2, h3, by rw [rename_reduces fi base_path fs name hname hdir hdest, h4]⟩

/-- Witness for C3 at the spec's own scenario: `report.pdf` arriving when
`Docs/report.pdf` and `Docs/report_1.pdf` already exist resolves to
`report_2.pdf` (the least free counter is 2) and is moved. -/
theorem rename_policy_unique_witness :
    ((⟨["report.pdf"], some "application/pdf", "Docs", 3⟩ : FileInfo).path.getLast? =
        some "report.pdf" ∧
      (([] : Path) ++ [(⟨["report.pdf"], some "application/pdf", "Docs", 3⟩ : FileInfo).category]) ∈
        (⟨[(["report.pdf"], 3), (["Docs", "report.pdf"], 1), (["Docs", "report_1.pdf"], 2)],
          [["Docs"]]⟩ : FS).dirs ∧
      (⟨[(["report.pdf"], 3), (["Docs", "report.pdf"], 1), (["Docs", "report_1.pdf"], 2)],
          [["Docs"]]⟩ : FS).pathExists
        (([] : Path) ++
          [(⟨["report.pdf"], some "application/pdf", "Docs", 3⟩ : FileInfo).category,
            "report.pdf"]) = true) ∧
    ((∀ (o : ErrOracle) (g : FileInfo) (b : Path) (d : Bool) (s : FS),
        (move_file o g b "rename" d s).1 ≠ MoveOutcome.skipped) ∧
      ∃ N, 1 ≤ N ∧
        (⟨[(["report.pdf"], 3), (["Docs", "report.pdf"], 1), (["Docs", "report_1.pdf"], 2)],
            [["Docs"]]⟩ : FS).pathExists
          ((([] : Path) ++
              [(⟨["report.pdf"], some "application/pdf", "Docs", 3⟩ : FileInfo).category]) ++
            [mkName (splitName "report.pdf").1 N (splitName "report.pdf").2]) = false ∧
        (∀ m, 1 ≤ m → m < N →
          (⟨[(["report.pdf"], 3), (["Docs", "report.pdf"], 1), (["Docs", "report_1.pdf"], 2)],
              [["Docs"]]⟩ : FS).pathExists
            ((([] : Path) ++
                [(⟨["report.pdf"], some "application/pdf", "Docs", 3⟩ : FileInfo).category]) ++
              [mkName (splitName "report.pdf").1 m (splitName "report.pdf").2]) = true) ∧
        move_file noErr ⟨["report.pdf"], some "application/pdf", "Docs", 3⟩ [] "rename" false
            ⟨[(["report.pdf"], 3), (["Docs", "report.pdf"], 1), (["Docs", "report_1.pdf"], 2)],
              [["Docs"]]⟩ =
          (.moved ((([] : Path) ++
                [(⟨["report.pdf"], some "application/pdf", "Docs", 3⟩ : FileInfo).category]) ++
              [mkName (splitName "report.pdf").1 N (splitName "report.pdf").2]),
           FS.renameFile
             ⟨[(["report.pdf"], 3), (["Docs", "report.pdf"], 1), (["Docs", "report_1.pdf"], 2)],
               [["Docs"]]⟩
             ["report.pdf"]
             ((([] : Path) ++
                [(⟨["report.pdf"], some "application/pdf", "Docs", 3⟩ : FileInfo).category]) ++
              [mkName (splitName "report.pdf").1 N (splitName "report.pdf").2]))) :=
  ⟨⟨rfl, by decide, by decide⟩,
    rename_policy_unique ⟨["report.pdf"], some "application/pdf", "Docs", 3⟩ []
      ⟨[(["report.pdf"], 3), (["Docs", "report.pdf"], 1), (["Docs", "report_1.pdf"], 2)],
        [["Docs"]]⟩ "report.pdf" rfl (by decide) (by decide)⟩

/-! ## Statistics bookkeeping of the per-file loop (C2, C5) -/

theorem processOne_stats (oracle : ErrOracle) (base_path : Path) (conflict : String)
    (dry_run : Bool) (st : RunState) (fi : FileInfo) :
    (processOne oracle base_path conflict dry_run st fi).2.stats.total_files =
      st.stats.total_files ∧
    (processOne oracle base_path conflict dry_run st fi).2.stats.moved =
      st.stats.moved +
        (if (processOne oracle base_path conflict dry_run st fi).1.isMoved then 1 else 0) ∧
    (processOne oracle base_path conflict dry_run st fi).2.stats.skipped =
      st.stats.skipped +
        (if (processOne oracle base_path conflict dry_run st fi).1.isSkipped then 1 else 0) ∧
    (processOne oracle base_path conflict dry_run st fi).2.stats.errors =
      st.stats.errors +
        (if (processOne oracle base_path conflict dry_run st fi).1.isFailed then 1 else 0) := by
  unfold processOne
  cases hmo : move_file oracle fi base_path conflict dry_run st.fs with
  | mk o fs' =>
    cases o <;>
      simp [MoveOutcome.isMoved, MoveOutcome.isSkipped, MoveOutcome.isFailed]

theorem processOne_category (oracle : ErrOracle) (base_path : Path) (conflict : String)
    (dry_run : Bool) (st : RunState) (fi : FileInfo) :
    ((processOne oracle base_path conflict dry_run st fi).2.category_progress =
        update_category st.category_progress fi.category fi.size ∧
      (processOne oracle base_path conflict dry_run st fi).2.stats.moved =
        st.stats.moved + 1) ∨
    ((processOne oracle base_path conflict dry_run st fi).2.category_progress =
        st.category_progress ∧
      (processOne oracle base_path conflict dry_run st fi).2.stats.moved = st.stats.moved) := by
  unfold processOne
  cases hmo : move_file oracle fi base_path conflict dry_run st.fs with
  | mk o fs' =>
    cases o with
    | moved d => exact Or.inl (by simp)
    | skipped => exact Or.inr (by simp)
    | failed => exact Or.inr (by simp)

theorem organizeLoop_spec (oracle : ErrOracle) (base_path : Path) (conflict : String)
    (dry_run : Bool) :
    ∀ (files : List FileInfo) (st : RunState),
      (organizeLoop oracle base_path conflict dry_run files st).1.length = files.length ∧
      (organizeLoop oracle base_path conflict dry_run files st).2.stats.total_files =
        st.stats.total_files ∧
      (organizeLoop oracle base_path conflict dry_run files st).2.stats.moved =
        st.stats.moved +
          ((organizeLoop oracle base_path conflict dry_run files st).1.filter
            MoveOutcome.isMoved).length ∧
      (organizeLoop oracle base_path conflict dry_run files st).2.stats.skipped =
        st.stats.skipped +
          ((organizeLoop oracle base_path conflict dry_run files st).1.filter
            MoveOutcome.isSkipped).length ∧
      (organizeLoop oracle base_path conflict dry_run files st).2.stats.errors =
        st.stats.errors +
          ((organizeLoop oracle base_path conflict dry_run files st).1.filter
            MoveOutcome.isFailed).length := by
  intro files
  induction files with
  | nil => intro st; simp [organizeLoop]
  | cons fi rest ih =>
    intro st
    obtain ⟨p1, p2, p3, p4⟩ := processOne_stats oracle base_path conflict dry_run st fi
    obtain ⟨h1, h2, h3, h4, h5⟩ := ih (processOne oracle base_path conflict dry_run st fi).2
    simp only [organizeLoop]
    cases hp : processOne oracle base_path conflict dry_run st fi with
    | mk o st' =>
      cases hr : organizeLoop oracle base_path conflict dry_run rest st' with
      | mk os stF =>
        rw [hp, hr] at h1 h2 h3 h4 h5
        rw [hp] at p1 p2 p3 p4
        dsimp only at h1 h2 h3 h4 h5 p1 p2 p3 p4 ⊢
        simp only [List.length_cons, List.filter_cons]
        refine ⟨by omega, by omega, ?_, ?_, ?_⟩ <;>
          · cases o <;>
              (simp_all [MoveOutcome.isMoved, MoveOutcome.isSkipped, MoveOutcome.isFailed];
                try omega)

theorem filter_outcome_partition : ∀ os : List MoveOutcome,
    (os.filter MoveOutcome.isMoved).length + (os.filter MoveOutcome.isSkipped).length +
      (os.filter MoveOutcome.isFailed).length = os.length := by
  intro os
  induction os with
  | nil => rfl
  | cons o os ih =>
    cases o <;>
      simp [MoveOutcome.isMoved, MoveOutcome.isSkipped, MoveOutcome.isFailed,
        List.filter_cons] <;>
      omega

theorem update_category_keys (cp : List (String × CategoryProgress)) (c : String) (sz : Nat) :
    (update_category cp c sz).map Prod.fst = cp.map Prod.fst := by
  simp only [update_category, List.map_map]
  apply List.map_congr_left
  intro e _
  by_cases h : e.1 = c <;> simp [h]

theorem update_category_cons (e : String × CategoryProgress)
    (tl : List (String × CategoryProgress)) (c : String) (sz : Nat) :
    update_category (e :: tl) c sz =
      (if decide (e.1 = c) then (e.1, ⟨e.2.count + 1, e.2.size + sz⟩) else e) ::
        update_category tl c sz := rfl

theorem update_category_count_sum (cp : List (String × CategoryProgress)) (c : String) (sz : Nat) :
    ((update_category cp c sz).map (fun e => e.2.count)).sum =
      (cp.map (fun e => e.2.count)).sum + (cp.map Prod.fst).count c := by
  induction cp with
  | nil => simp [update_category]
  | cons e tl ih =>
    rw [update_category_cons]
    by_cases h : e.1 = c
    · rw [if_pos (by simpa using h)]
      simp only [List.map_cons, List.sum_cons, List.count_cons]
      have hb : (c == e.1) = true := by simp [h]
      simp [hb, h, ih]
      omega
    · rw [if_neg (by simpa using h)]
      simp only [List.map_cons, List.sum_cons, List.count_cons]
      have hb : (c == e.1) = false := by
        simp only [beq_eq_false_iff_ne, ne_eq]
        exact fun hs => h hs.symm
      simp [hb, h, ih]
      omega

theorem count_catFolders_of_mem {c : String} (h : c ∈ catFolders) :
    catFolders.count c = 1 := by
  rcases (by simpa [catFolders] using h :
      c = "Multimedia" ∨ c = "Docs" ∨ c = "Compressed" ∨ c = "Misc") with rfl | rfl | rfl | rfl <;>
    decide

theorem organizeLoop_category_sum (oracle : ErrOracle) (base_path : Path) (conflict : String)
    (dry_run : Bool) :
    ∀ (files : List FileInfo) (st : RunState),
      (∀ fi ∈ files, fi.category ∈ catFolders) →
      st.category_progress.map Prod.fst = catFolders →
      (organizeLoop oracle base_path conflict dry_run files st).2.category_progress.map
          Prod.fst = catFolders ∧
      ((organizeLoop oracle base_path conflict dry_run files st).2.category_progress.map
          (fun e => e.2.count)).sum + st.stats.moved =
        (st.category_progress.map (fun e => e.2.count)).sum +
          (organizeLoop oracle base_path conflict dry_run files st).2.stats.moved := by
  intro files
  induction files with
  | nil => intro st _ hkeys; simp [organizeLoop, hkeys]
  | cons fi rest ih =>
    intro st hcat hkeys
    have hfc : fi.category ∈ catFolders := hcat fi (List.mem_cons_self _ _)
    have hrest : ∀ g ∈ rest, g.category ∈ catFolders :=
      fun g hg => hcat g (List.mem_cons_of_mem _ hg)
    rcases processOne_category oracle base_path conflict dry_run st fi with ⟨hcp, hm⟩ | ⟨hcp, hm⟩
    · have hkeys' : (processOne oracle base_path conflict dry_run st fi).2.category_progress.map
          Prod.fst = catFolders := by
        rw [hcp, update_category_keys, hkeys]
      obtain ⟨k1, k2⟩ := ih (processOne oracle base_path conflict dry_run st fi).2 hrest hkeys'
      have hsum : ((processOne oracle base_path conflict dry_run st fi).2.category_progress.map
          (fun e => e.2.count)).sum =
          (st.category_progress.map (fun e => e.2.count)).sum + 1 := by
        rw [hcp, update_category_count_sum, hkeys, count_catFolders_of_mem hfc]
      simp only [organizeLoop]
      cases hp : processOne oracle base_path conflict dry_run st fi with
      | mk o st' =>
        rw [hp] at k1 k2 hsum hm
        cases hr : organizeLoop oracle base_path conflict dry_run rest st' with
        | mk os stF =>
          rw [hr] at k1 k2
          refine ⟨k1, ?_⟩
          dsimp only at k2 hsum hm ⊢
          omega
    · have hkeys' : (processOne oracle base_path conflict dry_run st fi).2.category_progress.map
          Prod.fst = catFolders := by
        rw [hcp, hkeys]
      obtain ⟨k1, k2⟩ := ih (processOne oracle base_path conflict dry_run st fi).2 hrest hkeys'
      have hsum : ((processOne oracle base_path conflict dry_run st fi).2.category_progress.map
          (fun e => e.2.count)).sum =
          (st.category_progress.map (fun e => e.2.count)).sum := by
        rw [hcp]
      simp only [organizeLoop]
      cases hp : processOne oracle base_path conflict dry_run st fi with
      | mk o st' =>
        rw [hp] at k1 k2 hsum hm
        cases hr : organizeLoop oracle base_path conflict dry_run rest st' with
        | mk os stF =>
          rw [hr] at k1 k2
          refine ⟨k1, ?_⟩
          dsimp only at k2 hsum hm ⊢
          omega

/-! ## C2: the statistics invariant -/

theorem initCategoryProgress_keys : initCategoryProgress.map Prod.fst = catFolders := by
  decide

theorem initCategoryProgress_count_sum :
    (initCategoryProgress.map (fun e => e.2.count)).sum = 0 := by
  decide

/-- C2 counterexample: `total_files` is set to the full count before the
loop starts, so after the first of two files is processed the counters
read `total_files = 2` but `moved + skipped + errors = 1`; the claimed
equality fails after each intermediate file. -/
theorem stats_mid_run_counterexample :
    (organizeLoop noErr [] "skip" false
        ([⟨["a.txt"], some "text/plain", "Docs", 1⟩,
          ⟨["b.txt"], some "text/plain", "Docs", 1⟩].take 1)
        (initRunState ⟨[(["a.txt"], 1), (["b.txt"], 1)], [[]]⟩
          [(⟨["a.txt"], some "text/plain", "Docs", 1⟩ : FileInfo),
            ⟨["b.txt"], some "text/plain", "Docs", 1⟩].length)).2.stats.total_files = 2 ∧
    (organizeLoop noErr [] "skip" false
        ([⟨["a.txt"], some "text/plain", "Docs", 1⟩,
          ⟨["b.txt"], some "text/plain", "Docs", 1⟩].take 1)
        (initRunState ⟨[(["a.txt"], 1), (["b.txt"], 1)], [[]]⟩
          [(⟨["a.txt"], some "text/plain", "Docs", 1⟩ : FileInfo),
            ⟨["b.txt"], some "text/plain", "Docs", 1⟩].length)).2.stats.moved +
      (organizeLoop noErr [] "skip" false
        ([⟨["a.txt"], some "text/plain", "Docs", 1⟩,
          ⟨["b.txt"], some "text/plain", "Docs", 1⟩].take 1)
        (initRunState ⟨[(["a.txt"], 1), (["b.txt"], 1)], [[]]⟩
          [(⟨["a.txt"], some "text/plain", "Docs", 1⟩ : FileInfo),
            ⟨["b.txt"], some "text/plain", "Docs", 1⟩].length)).2.stats.skipped +
      (organizeLoop noErr [] "skip" false
        ([⟨["a.txt"], some "text/plain", "Docs", 1⟩,
          ⟨["b.txt"], some "text/plain", "Docs", 1⟩].take 1)
        (initRunState ⟨[(["a.txt"], 1), (["b.txt"], 1)], [[]]⟩
          [(⟨["a.txt"], some "text/plain", "Docs", 1⟩ : FileInfo),
            ⟨["b.txt"], some "text/plain", "Docs", 1⟩].length)).2.stats.errors = 1 := by
  constructor
  · decide
  · decide

/-- C2 amended: during a run, `total_files` stays fixed at the number of
scanned files while `moved + skipped + errors` equals the number of files
processed so far (each processed file increments exactly one of the
three); hence `total_files = moved + skipped + errors` holds at
completion, and at completion the per-category counts sum exactly to
`moved` (a file is counted toward its category only when its outcome is
Moved). -/
theorem run_stats_invariant (oracle : ErrOracle) (base_path : Path) (conflict : String)
    (dry_run : Bool) (files : List FileInfo) (fs : FS)
    (hcat : ∀ fi ∈ files, fi.category ∈ catFolders) :
    (∀ k : Nat,
      (organizeLoop oracle base_path conflict dry_run (files.take k)
          (initRunState fs files.length)).2.stats.total_files = files.length ∧
      (organizeLoop oracle base_path conflict dry_run (files.take k)
          (initRunState fs files.length)).2.stats.moved +
        (organizeLoop oracle base_path conflict dry_run (files.take k)
          (initRunState fs files.length)).2.stats.skipped +
        (organizeLoop oracle base_path conflict dry_run (files.take k)
          (initRunState fs files.length)).2.stats.errors = (files.take k).length) ∧
    ((run_files oracle base_path conflict dry_run files fs).2.stats.total_files = files.length ∧
      (run_files oracle base_path conflict dry_run files fs).2.stats.moved +
        (run_files oracle base_path conflict dry_run files fs).2.stats.skipped +
        (run_files oracle base_path conflict dry_run files fs).2.stats.errors = files.length ∧
      ((run_files oracle base_path conflict dry_run files fs).2.category_progress.map
        (fun e => e.2.count)).sum =
        (run_files oracle base_path conflict dry_run files fs).2.stats.moved) := by
  have hpre : ∀ (gs : List FileInfo),
      (organizeLoop oracle base_path conflict dry_run gs
        (initRunState fs files.length)).2.stats.total_files = files.length ∧
      (organizeLoop oracle base_path conflict dry_run gs
          (initRunState fs files.length)).2.stats.moved +
        (organizeLoop oracle base_path conflict dry_run gs
          (initRunState fs files.length)).2.stats.skipped +
        (organizeLoop oracle base_path conflict dry_run gs
          (initRunState fs files.length)).2.stats.errors = gs.length := by
    intro gs
    obtain ⟨h1, h2, h3, h4, h5⟩ :=
      organizeLoop_spec oracle base_path conflict dry_run gs (initRunState fs files.length)
    have hpart := filter_outcome_partition
      (organizeLoop oracle base_path conflict dry_run gs (initRunState fs files.length)).1
    have e1 : (initRunState fs files.length).stats.moved = 0 := rfl
    have e2 : (initRunState fs files.length).stats.skipped = 0 := rfl
    have e3 : (initRunState fs files.length).stats.errors = 0 := rfl
    have e4 : (initRunState fs files.length).stats.total_files = files.length := rfl
    rw [e1] at h3
    rw [e2] at h4
    rw [e3] at h5
    rw [e4] at h2
    exact ⟨h2, by omega⟩
  refine ⟨fun k => hpre (files.take k), ?_⟩
  obtain ⟨h1, h2⟩ := hpre files
  have erun : run_files oracle base_path conflict dry_run files fs =
      organizeLoop oracle base_path conflict dry_run files (initRunState fs files.length) := rfl
  refine ⟨by rw [erun]; exact h1, by rw [erun]; exact h2, ?_⟩
  have ecp : (initRunState fs files.length).category_progress = initCategoryProgress := rfl
  obtain ⟨k1, k2⟩ := organizeLoop_category_sum oracle base_path conflict dry_run files
    (initRunState fs files.length) hcat (by rw [ecp]; exact initCategoryProgress_keys)
  have em : (initRunState fs files.length).stats.moved = 0 := rfl
  rw [em, ecp, initCategoryProgress_count_sum] at k2
  rw [erun]
  omega

/-- Witness for C2 at a concrete one-file run. -/
theorem run_stats_invariant_witness :
    (∀ fi ∈ [(⟨["a.txt"], some "text/plain", "Docs", 1⟩ : FileInfo)], fi.category ∈ catFolders) ∧
    ((run_files noErr [] "skip" false [⟨["a.txt"], some "text/plain", "Docs", 1⟩]
        ⟨[(["a.txt"], 1)], [[]]⟩).2.stats.total_files =
      [(⟨["a.txt"], some "text/plain", "Docs", 1⟩ : FileInfo)].length ∧
      (run_files noErr [] "skip" false [⟨["a.txt"], some "text/plain", "Docs", 1⟩]
          ⟨[(["a.txt"], 1)], [[]]⟩).2.stats.moved +
        (run_files noErr [] "skip" false [⟨["a.txt"], some "text/plain", "Docs", 1⟩]
          ⟨[(["a.txt"], 1)], [[]]⟩).2.stats.skipped +
        (run_files noErr [] "skip" false [⟨["a.txt"], some "text/plain", "Docs", 1⟩]
          ⟨[(["a.txt"], 1)], [[]]⟩).2.stats.errors =
        [(⟨["a.txt"], some "text/plain", "Docs", 1⟩ : FileInfo)].length ∧
      ((run_files noErr [] "skip" false [⟨["a.txt"], some "text/plain", "Docs", 1⟩]
          ⟨[(["a.txt"], 1)], [[]]⟩).2.category_progress.map (fun e => e.2.count)).sum =
        (run_files noErr [] "skip" false [⟨["a.txt"], some "text/plain", "Docs", 1⟩]
          ⟨[(["a.txt"], 1)], [[]]⟩).2.stats.moved) :=
  ⟨by decide,
    (run_stats_invariant noErr [] "skip" false [⟨["a.txt"], some "text/plain", "Docs", 1⟩]
      ⟨[(["a.txt"], 1)], [[]]⟩ (by decide)).2⟩

/-! ## C5: per-file failures are contained -/

/-- C5: every filesystem error while processing a single file becomes a
Failed outcome with the filesystem untouched by the failing step —
directory creation failure, removal failure under Overwrite, and failure
of the move itself all yield `(.failed, fs)` — and the loop never aborts:
for every oracle and file list, every file is processed (one outcome per
file) and `errors` counts exactly the Failed outcomes. -/
theorem per_file_errors_contained :
    (∀ (oracle : ErrOracle) (fi : FileInfo) (base_path : Path) (conflict : String) (fs : FS),
      fs.pathExists (base_path ++ [fi.category]) = false →
      oracle (.createDir (base_path ++ [fi.category])) = true →
      move_file oracle fi base_path conflict false fs = (.failed, fs)) ∧
    (∀ (oracle : ErrOracle) (fi : FileInfo) (base_path : Path) (fs : FS) (name : String),
      fi.path.getLast? = some name →
      (base_path ++ [fi.category]) ∈ fs.dirs →
      fs.pathExists (base_path ++ [fi.category, name]) = true →
      oracle (.removeFile (base_path ++ [fi.category, name])) = true →
      move_file oracle fi base_path "overwrite" false fs = (.failed, fs)) ∧
    (∀ (oracle : ErrOracle) (fi : FileInfo) (base_path : Path) (fs : FS) (name : String),
      fi.path.getLast? = some name →
      (base_path ++ [fi.category]) ∈ fs.dirs →
      fs.pathExists (base_path ++ [fi.category, name]) = false →
      oracle (.rename fi.path (base_path ++ [fi.category, name])) = true →
      move_file oracle fi base_path "skip" false fs = (.failed, fs)) ∧
    (∀ (oracle : ErrOracle) (base_path : Path) (conflict : String) (dry_run : Bool)
        (files : List FileInfo) (fs : FS),
      (run_files oracle base_path conflict dry_run files fs).1.length = files.length ∧
      (run_files oracle base_path conflict dry_run files fs).2.stats.errors =
        ((run_files oracle base_path conflict dry_run files fs).1.filter
          MoveOutcome.isFailed).length) := by
  refine ⟨?_, ?_, ?_, ?_⟩
  · intro oracle fi base_path conflict fs h1 h2
    simp [move_file, h1, h2]
  · intro oracle fi base_path fs name hname hdir hdest horacle
    have hdirEx : fs.pathExists (base_path ++ [fi.category]) = true :=
      FS.pathExists_of_mem_dirs hdir
    simp [move_file, hname, hdirEx, hdest, horacle]
  · intro oracle fi base_path fs name hname hdir hdest horacle
    have hdirEx : fs.pathExists (base_path ++ [fi.category]) = true :=
      FS.pathExists_of_mem_dirs hdir
    simp [move_file, hname, hdirEx, hdest, horacle]
  · intro oracle base_path conflict dry_run files fs
    obtain ⟨h1, h2, h3, h4, h5⟩ :=
      organizeLoop_spec oracle base_path conflict dry_run files (initRunState fs files.length)
    simp only [initRunState] at h5
    exact ⟨h1, by simpa [run_files, initRunState] using h5⟩

/-- Witness for C5: each failure mode at a concrete state — a failing
`create_dir`, a failing `remove_file` under Overwrite, and a failing
`rename` — produces a Failed outcome with the state unchanged. -/
theorem per_file_errors_contained_witness :
    (((⟨[], []⟩ : FS).pathExists ([] ++ ["Misc"]) = false ∧
      (fun _ => true : ErrOracle) (.createDir ([] ++ ["Misc"])) = true ∧
      move_file (fun _ => true) ⟨["a.txt"], none, "Misc", 0⟩ [] "skip" false ⟨[], []⟩ =
        (.failed, ⟨[], []⟩)) ∧
    ((⟨["a.txt"], none, "Docs", 0⟩ : FileInfo).path.getLast? = some "a.txt" ∧
      ([] ++ ["Docs"] : Path) ∈ (⟨[(["Docs", "a.txt"], 1)], [["Docs"]]⟩ : FS).dirs ∧
      (⟨[(["Docs", "a.txt"], 1)], [["Docs"]]⟩ : FS).pathExists ([] ++ ["Docs", "a.txt"]) = true ∧
      move_file (fun op => match op with | .removeFile _ => true | _ => false)
          ⟨["a.txt"], none, "Docs", 0⟩ [] "overwrite" false
          ⟨[(["Docs", "a.txt"], 1)], [["Docs"]]⟩ =
        (.failed, ⟨[(["Docs", "a.txt"], 1)], [["Docs"]]⟩)) ∧
    ((⟨["a.txt"], none, "Docs", 0⟩ : FileInfo).path.getLast? = some "a.txt" ∧
      ([] ++ ["Docs"] : Path) ∈ (⟨[(["a.txt"], 1)], [["Docs"]]⟩ : FS).dirs ∧
      (⟨[(["a.txt"], 1)], [["Docs"]]⟩ : FS).pathExists ([] ++ ["Docs", "a.txt"]) = false ∧
      move_file (fun op => match op with | .rename _ _ => true | _ => false)
          ⟨["a.txt"], none, "Docs", 0⟩ [] "skip" false ⟨[(["a.txt"], 1)], [["Docs"]]⟩ =
        (.failed, ⟨[(["a.txt"], 1)], [["Docs"]]⟩))) :=
  ⟨⟨by decide, rfl,
      per_file_errors_contained.1 (fun _ => true) ⟨["a.txt"], none, "Misc", 0⟩ [] "skip"
        ⟨[], []⟩ (by decide) rfl⟩,
    ⟨rfl, by decide, by decide,
      per_file_errors_contained.2.1 (fun op => match op with | .removeFile _ => true | _ => false)
        ⟨["a.txt"], none, "Docs", 0⟩ [] ⟨[(["Docs", "a.txt"], 1)], [["Docs"]]⟩ "a.txt"
        rfl (by decide) (by decide) rfl⟩,
    ⟨rfl, by decide, by decide,
      per_file_errors_contained.2.2.1 (fun op => match op with | .rename _ _ => true | _ => false)
        ⟨["a.txt"], none, "Docs", 0⟩ [] ⟨[(["a.txt"], 1)], [["Docs"]]⟩ "a.txt"
        rfl (by decide) (by decide) rfl⟩⟩

/-! ## Frame lemmas for single filesystem operations (C1, C7) -/

theorem pathExists_createDir_ne {s : FS} {d0 p : Path} (h : p ≠ d0) :
    (s.createDir d0).pathExists p = s.pathExists p := by
  have hd : decide (d0 = p) = false := by
    simp only [decide_eq_false_iff_not]
    exact fun he => h he.symm
  simp [FS.createDir, FS.pathExists, List.any_cons, hd]

theorem any_filter_of_imp {α} (l : List α) (q f : α → Bool) (h : ∀ a, f a = true → q a = true) :
    (l.filter q).any f = l.any f := by
  induction l with
  | nil => rfl
  | cons a tl ih =>
    by_cases hq : q a = true
    · simp [List.filter_cons, hq, List.any_cons, ih]
    · have hf : f a = false := by
        cases hfa : f a
        · rfl
        · exact absurd (h a hfa) hq
      simp [List.filter_cons, hq, List.any_cons, ih, hf]

theorem pathExists_renameFile_ne {s : FS} {src dst p : Path} (h1 : p ≠ src) (h2 : p ≠ dst) :
    (s.renameFile src dst).pathExists p = s.pathExists p := by
  have hdst : decide (dst = p) = false := by
    simp only [decide_eq_false_iff_not]
    exact fun he => h2 he.symm
  simp only [FS.renameFile, FS.pathExists, List.any_append, List.any_cons, List.any_nil, hdst,
    Bool.or_false]
  have hfil : ((s.files.filter
      (fun e => !decide (e.1 = src) && !decide (e.1 = dst))).any
        (fun e => decide (e.1 = p))) = s.files.any (fun e => decide (e.1 = p)) := by
    apply any_filter_of_imp
    intro a ha
    have hap : a.1 = p := by simpa using ha
    have hns : decide (a.1 = src) = false := by
      simp only [decide_eq_false_iff_not]
      rw [hap]
      exact h1
    have hnd : decide (a.1 = dst) = false := by
      simp only [decide_eq_false_iff_not]
      rw [hap]
      exact h2
    simp [hns, hnd]
  rw [hfil]

theorem pathExists_renameFile_dst {s : FS} {src dst : Path} :
    (s.renameFile src dst).pathExists dst = true := by
  simp [FS.renameFile, FS.pathExists, List.any_append, List.any_cons]

theorem renameFile_removes_src {s : FS} {src dst : Path} (h : src ≠ dst) :
    ∀ c, (src, c) ∉ (s.renameFile src dst).files := by
  intro c hc
  simp only [FS.renameFile, List.mem_append, List.mem_filter, List.mem_cons] at hc
  rcases hc with ⟨_, hq⟩ | heq | hnil
  · simp at hq
  · exact h (congrArg Prod.fst heq)
  · simp at hnil

theorem move_file_dry_fs (oracle : ErrOracle) (fi : FileInfo) (base_path : Path)
    (conflict : String) (s : FS) :
    (move_file oracle fi base_path conflict true s).2 = s := by
  rcases hname : fi.path.getLast? with _ | name
  all_goals simp only [move_file, hname]
  all_goals repeat' split
  all_goals simp_all

theorem dest_ne_catdir (base : Path) (c n : String) : base ++ [c, n] ≠ base ++ [c] := by
  intro h
  have := congrArg List.length h
  simp at this

theorem skip_outcome (fi : FileInfo) (base_path : Path) (d : Bool) (s : FS) :
    (move_file noErr fi base_path "skip" d s).1 =
      (match fi.path.getLast? with
       | none => MoveOutcome.failed
       | some n =>
         if s.pathExists (base_path ++ [fi.category, n]) then MoveOutcome.skipped
         else MoveOutcome.moved (base_path ++ [fi.category, n])) := by
  rcases hname : fi.path.getLast? with _ | name
  · simp [move_file, hname, noErr]
  · cases d with
    | true =>
      simp only [move_file, hname, noErr]
      simp
      try (split <;> simp)
    | false =>
      by_cases hcd : s.pathExists (base_path ++ [fi.category]) = true
      · simp [move_file, hname, noErr, hcd]
        try (split <;> simp)
      · have hpe := pathExists_createDir_ne (s := s)
          (dest_ne_catdir base_path fi.category name)
        simp [move_file, hname, noErr, hcd, hpe]
        try (split <;> simp)

theorem overwrite_outcome (fi : FileInfo) (base_path : Path) (d : Bool) (s : FS) :
    (move_file noErr fi base_path "overwrite" d s).1 =
      (match fi.path.getLast? with
       | none => MoveOutcome.failed
       | some n => MoveOutcome.moved (base_path ++ [fi.category, n])) := by
  rcases hname : fi.path.getLast? with _ | name
  · simp [move_file, hname, noErr]
  · cases d with
    | true =>
      simp only [move_file, hname, noErr]
      simp
    | false =>
      by_cases hcd : s.pathExists (base_path ++ [fi.category]) = true
      · simp only [move_file, hname, noErr, hcd]
        simp
        try (split <;> simp)
      · have hpe := pathExists_createDir_ne (s := s)
          (dest_ne_catdir base_path fi.category name)
        simp only [move_file, hname, noErr, hcd]
        simp [hpe]
        try (split <;> simp)

theorem skip_step_pathExists (fi : FileInfo) (base_path : Path) (s : FS) (p : Path)
    (hp_dir : p ≠ base_path ++ [fi.category])
    (hp_src : p ≠ fi.path)
    (hp_dest : ∀ n, fi.path.getLast? = some n → p ≠ base_path ++ [fi.category, n]) :
    ((move_file noErr fi base_path "skip" false s).2).pathExists p = s.pathExists p := by
  rcases hname : fi.path.getLast? with _ | name
  · by_cases hcd : s.pathExists (base_path ++ [fi.category]) = true
    · simp [move_file, hname, noErr, hcd]
    · simp [move_file, hname, noErr, hcd, pathExists_createDir_ne hp_dir]
  · have hpd := hp_dest name hname
    by_cases hcd : s.pathExists (base_path ++ [fi.category]) = true
    · by_cases hde : s.pathExists (base_path ++ [fi.category, name]) = true
      · simp [move_file, hname, noErr, hcd, hde]
      · simp [move_file, hname, noErr, hcd, hde,
          pathExists_renameFile_ne hp_src hpd]
    · have hpe := pathExists_createDir_ne (s := s)
        (dest_ne_catdir base_path fi.category name)
      by_cases hde : s.pathExists (base_path ++ [fi.category, name]) = true
      · simp [move_file, hname, noErr, hcd, hpe, hde, pathExists_createDir_ne hp_dir]
      · simp [move_file, hname, noErr, hcd, hpe, hde,
          pathExists_renameFile_ne hp_src hpd, pathExists_createDir_ne hp_dir]

/-! ## C1: dry-run parity -/

theorem organizeLoop_cons (oracle : ErrOracle) (b : Path) (c : String) (d : Bool)
    (fi : FileInfo) (rest : List FileInfo) (st : RunState) :
    organizeLoop oracle b c d (fi :: rest) st =
      ((processOne oracle b c d st fi).1 ::
        (organizeLoop oracle b c d rest (processOne oracle b c d st fi).2).1,
       (organizeLoop oracle b c d rest (processOne oracle b c d st fi).2).2) := by
  simp only [organizeLoop]

theorem processOne_outcome (oracle : ErrOracle) (b : Path) (c : String) (d : Bool)
    (st : RunState) (fi : FileInfo) :
    (processOne oracle b c d st fi).1 = (move_file oracle fi b c d st.fs).1 ∧
    (processOne oracle b c d st fi).2.fs = (move_file oracle fi b c d st.fs).2 := by
  unfold processOne
  cases hmo : move_file oracle fi b c d st.fs with
  | mk o fs' => cases o <;> simp

theorem path_pair_inj {base : Path} {c1 c2 n1 n2 : String}
    (h : base ++ [c1, n1] = base ++ [c2, n2]) : c1 = c2 ∧ n1 = n2 := by
  have := List.append_cancel_left h
  simp only [List.cons.injEq, and_true] at this
  exact this

theorem parity_loop_skip (base_path : Path) (fs0 : FS) :
    ∀ (files : List FileInfo) (st_d st_r : RunState),
      st_d.fs = fs0 →
      List.Pairwise (fun a b : FileInfo =>
        ¬(a.category = b.category ∧ a.path.getLast? = b.path.getLast?)) files →
      (∀ fi ∈ files, ∀ fj ∈ files, ∀ n, fj.path.getLast? = some n →
        fi.path ≠ base_path ++ [fj.category, n]) →
      (∀ fj ∈ files, ∀ n, fj.path.getLast? = some n →
        st_r.fs.pathExists (base_path ++ [fj.category, n]) =
          fs0.pathExists (base_path ++ [fj.category, n])) →
      (organizeLoop noErr base_path "skip" true files st_d).1 =
        (organizeLoop noErr base_path "skip" false files st_r).1 := by
  intro files
  induction files with
  | nil => intro st_d st_r _ _ _ _; rfl
  | cons fi rest ih =>
    intro st_d st_r hd hpw hsrc hinv
    obtain ⟨pd1, pd2⟩ := processOne_outcome noErr base_path "skip" true st_d fi
    obtain ⟨pr1, pr2⟩ := processOne_outcome noErr base_path "skip" false st_r fi
    rw [organizeLoop_cons, organizeLoop_cons]
    have hpw' := (List.pairwise_cons.mp hpw).2
    have hpwh := (List.pairwise_cons.mp hpw).1
    have hsrc' : ∀ g ∈ rest, ∀ fj ∈ rest, ∀ n, fj.path.getLast? = some n →
        g.path ≠ base_path ++ [fj.category, n] :=
      fun g hg fj hj n hn =>
        hsrc g (List.mem_cons_of_mem _ hg) fj (List.mem_cons_of_mem _ hj) n hn
    have hfs_d' : (processOne noErr base_path "skip" true st_d fi).2.fs = fs0 := by
      rw [pd2, move_file_dry_fs, hd]
    have hinv' : ∀ fj ∈ rest, ∀ n, fj.path.getLast? = some n →
        (processOne noErr base_path "skip" false st_r fi).2.fs.pathExists
          (base_path ++ [fj.category, n]) =
        fs0.pathExists (base_path ++ [fj.category, n]) := by
      intro fj hj n hn
      rw [pr2]
      have hstep : ((move_file noErr fi base_path "skip" false st_r.fs).2).pathExists
          (base_path ++ [fj.category, n]) =
          st_r.fs.pathExists (base_path ++ [fj.category, n]) := by
        apply skip_step_pathExists
        · intro he
          have := congrArg List.length he
          simp at this
        · intro he
          exact hsrc fi (List.mem_cons_self _ _) fj (List.mem_cons_of_mem _ hj) n hn he.symm
        · intro n' hn' he
          obtain ⟨hc, hn2⟩ := path_pair_inj he
          exact hpwh fj hj ⟨hc.symm, by rw [hn', hn, hn2]⟩
      rw [hstep]
      exact hinv fj (List.mem_cons_of_mem _ hj) n hn
    have hhead : (move_file noErr fi base_path "skip" true st_d.fs).1 =
        (move_file noErr fi base_path "skip" false st_r.fs).1 := by
      rw [skip_outcome, skip_outcome]
      rcases hname : fi.path.getLast? with _ | n
      · rfl
      · have h1 := hinv fi (List.mem_cons_self _ _) n hname
        simp only [hname]
        rw [hd, h1]
    rw [pd1, pr1, hhead]
    rw [ih (processOne noErr base_path "skip" true st_d fi).2
      (processOne noErr base_path "skip" false st_r fi).2 hfs_d' hpw' hsrc' hinv']

theorem organizeLoop_overwrite_outcomes (base_path : Path) (d : Bool) :
    ∀ (files : List FileInfo) (st : RunState),
      (organizeLoop noErr base_path "overwrite" d files st).1 =
        files.map (fun fi =>
          match fi.path.getLast? with
          | none => MoveOutcome.failed
          | some n => MoveOutcome.moved (base_path ++ [fi.category, n])) := by
  intro files
  induction files with
  | nil => intro st; rfl
  | cons fi rest ih =>
    intro st
    rw [organizeLoop_cons]
    obtain ⟨p1, _⟩ := processOne_outcome noErr base_path "overwrite" d st fi
    simp only [List.map_cons]
    rw [p1, overwrite_outcome, ih]

/-- C1 counterexample: for a fixed scanned list with two same-named files
of the same category, under policy Skip the dry run reports
[Moved, Moved] but the real run reports [Moved, Skipped] (the first real
move makes the second file's destination exist); under policy Rename the
resolved destination names also differ between the two modes. -/
theorem dry_run_parity_counterexample :
    (run_files noErr [] "skip" true
        [⟨["s1", "a.txt"], some "text/plain", "Docs", 1⟩,
         ⟨["s2", "a.txt"], some "text/plain", "Docs", 2⟩]
        ⟨[(["s1", "a.txt"], 1), (["s2", "a.txt"], 2)], [[]]⟩).1 =
      [.moved ["Docs", "a.txt"], .moved ["Docs", "a.txt"]] ∧
    (run_files noErr [] "skip" false
        [⟨["s1", "a.txt"], some "text/plain", "Docs", 1⟩,
         ⟨["s2", "a.txt"], some "text/plain", "Docs", 2⟩]
        ⟨[(["s1", "a.txt"], 1), (["s2", "a.txt"], 2)], [[]]⟩).1 =
      [.moved ["Docs", "a.txt"], .skipped] ∧
    (run_files noErr [] "skip" true
        [⟨["s1", "a.txt"], some "text/plain", "Docs", 1⟩,
         ⟨["s2", "a.txt"], some "text/plain", "Docs", 2⟩]
        ⟨[(["s1", "a.txt"], 1), (["s2", "a.txt"], 2)], [[]]⟩).1 ≠
      (run_files noErr [] "skip" false
        [⟨["s1", "a.txt"], some "text/plain", "Docs", 1⟩,
         ⟨["s2", "a.txt"], some "text/plain", "Docs", 2⟩]
        ⟨[(["s1", "a.txt"], 1), (["s2", "a.txt"], 2)], [[]]⟩).1 ∧
    (run_files noErr [] "rename" true
        [⟨["s1", "a.txt"], some "text/plain", "Docs", 1⟩,
         ⟨["s2", "a.txt"], some "text/plain", "Docs", 2⟩]
        ⟨[(["s1", "a.txt"], 1), (["s2", "a.txt"], 2)], [[]]⟩).1 ≠
      (run_files noErr [] "rename" false
        [⟨["s1", "a.txt"], some "text/plain", "Docs", 1⟩,
         ⟨["s2", "a.txt"], some "text/plain", "Docs", 2⟩]
        ⟨[(["s1", "a.txt"], 1), (["s2", "a.txt"], 2)], [[]]⟩).1 := by
  refine ⟨by decide, by decide, by decide, by decide⟩

/-- C1 amended: in an error-free run the outcome sequences of dry and real
mode coincide under policy Overwrite unconditionally, and under policy
Skip (the default) whenever the scanned files have pairwise distinct
(category, file name) pairs and no scanned file's source path coincides
with any file's destination path; in general a real run's earlier
mutations can change a later decision, so unconditional parity fails for
Skip and Rename (see the counterexample). -/
theorem dry_run_parity (base_path : Path) (conflict : String) (files : List FileInfo) (fs : FS)
    (hpol : conflict = "overwrite" ∨
      (conflict = "skip" ∧
        List.Pairwise (fun a b : FileInfo =>
          ¬(a.category = b.category ∧ a.path.getLast? = b.path.getLast?)) files ∧
        (∀ fi ∈ files, ∀ fj ∈ files, ∀ n, fj.path.getLast? = some n →
          fi.path ≠ base_path ++ [fj.category, n]))) :
    (run_files noErr base_path conflict true files fs).1 =
      (run_files noErr base_path conflict false files fs).1 := by
  rcases hpol with rfl | ⟨rfl, hpw, hsrc⟩
  · rw [run_files, run_files, organizeLoop_overwrite_outcomes,
      organizeLoop_overwrite_outcomes]
  · exact parity_loop_skip base_path fs files (initRunState fs files.length)
      (initRunState fs files.length) rfl hpw hsrc (fun _ _ _ _ => rfl)

/-- Witness for C1's amended parity at a concrete two-file run with
distinct names under policy Skip. -/
theorem dry_run_parity_witness :
    (("skip" : String) = "overwrite" ∨
      (("skip" : String) = "skip" ∧
        List.Pairwise (fun a b : FileInfo =>
          ¬(a.category = b.category ∧ a.path.getLast? = b.path.getLast?))
          [⟨["a.txt"], some "text/plain", "Docs", 1⟩,
           ⟨["b.txt"], some "text/plain", "Docs", 2⟩] ∧
        (∀ fi ∈ [(⟨["a.txt"], some "text/plain", "Docs", 1⟩ : FileInfo),
              ⟨["b.txt"], some "text/plain", "Docs", 2⟩],
          ∀ fj ∈ [(⟨["a.txt"], some "text/plain", "Docs", 1⟩ : FileInfo),
              ⟨["b.txt"], some "text/plain", "Docs", 2⟩],
          ∀ n, fj.path.getLast? = some n →
            fi.path ≠ ([] : Path) ++ [fj.category, n]))) ∧
    (run_files noErr [] "skip" true
        [⟨["a.txt"], some "text/plain", "Docs", 1⟩,
         ⟨["b.txt"], some "text/plain", "Docs", 2⟩]
        ⟨[(["a.txt"], 1), (["b.txt"], 2)], [[]]⟩).1 =
      (run_files noErr [] "skip" false
        [⟨["a.txt"], some "text/plain", "Docs", 1⟩,
         ⟨["b.txt"], some "text/plain", "Docs", 2⟩]
        ⟨[(["a.txt"], 1), (["b.txt"], 2)], [[]]⟩).1 := by
  have hsrc : ∀ fi ∈ [(⟨["a.txt"], some "text/plain", "Docs", 1⟩ : FileInfo),
        ⟨["b.txt"], some "text/plain", "Docs", 2⟩],
      ∀ fj ∈ [(⟨["a.txt"], some "text/plain", "Docs", 1⟩ : FileInfo),
        ⟨["b.txt"], some "text/plain", "Docs", 2⟩],
      ∀ n, fj.path.getLast? = some n → fi.path ≠ ([] : Path) ++ [fj.category, n] := by
    intro fi hfi fj hfj n hn
    fin_cases hfi <;> fin_cases hfj <;>
      (simp only [List.getLast?_singleton, Option.some.injEq] at hn; subst hn; decide)
  refine ⟨Or.inr ⟨rfl, by decide, hsrc⟩, ?_⟩
  exact dry_run_parity [] "skip"
    [⟨["a.txt"], some "text/plain", "Docs", 1⟩, ⟨["b.txt"], some "text/plain", "Docs", 2⟩]
    ⟨[(["a.txt"], 1), (["b.txt"], 2)], [[]]⟩ (Or.inr ⟨rfl, by decide, hsrc⟩)

/-! ## C7: idempotence of a second Skip run -/

theorem pathExists_createDir_mono {s : FS} {d0 p : Path} (h : s.pathExists p = true) :
    (s.createDir d0).pathExists p = true := by
  simp only [FS.createDir, FS.pathExists, List.any_cons, Bool.or_eq_true] at h ⊢
  tauto

theorem skip_step_skipped (fi : FileInfo) (base_path : Path) (s : FS) (n : String)
    (hname : fi.path.getLast? = some n)
    (hdest : s.pathExists (base_path ++ [fi.category, n]) = true) :
    move_file noErr fi base_path "skip" false s = (.skipped, s) ∨
    move_file noErr fi base_path "skip" false s =
      (.skipped, s.createDir (base_path ++ [fi.category])) := by
  by_cases hcd : s.pathExists (base_path ++ [fi.category]) = true
  · left
    simp [move_file, hname, noErr, hcd, hdest]
  · right
    have hpe := pathExists_createDir_ne (s := s) (dest_ne_catdir base_path fi.category n)
    simp [move_file, hname, noErr, hcd, hpe, hdest]

theorem skip_step_moved (fi : FileInfo) (base_path : Path) (s : FS) (n : String)
    (hname : fi.path.getLast? = some n)
    (hdest : s.pathExists (base_path ++ [fi.category, n]) = false) :
    (move_file noErr fi base_path "skip" false s).1 =
      MoveOutcome.moved (base_path ++ [fi.category, n]) ∧
    ((move_file noErr fi base_path "skip" false s).2 =
      s.renameFile fi.path (base_path ++ [fi.category, n]) ∨
     (move_file noErr fi base_path "skip" false s).2 =
      (s.createDir (base_path ++ [fi.category])).renameFile fi.path
        (base_path ++ [fi.category, n])) := by
  by_cases hcd : s.pathExists (base_path ++ [fi.category]) = true
  · constructor
    · simp [move_file, hname, noErr, hcd, hdest]
    · left
      simp [move_file, hname, noErr, hcd, hdest]
  · have hpe := pathExists_createDir_ne (s := s) (dest_ne_catdir base_path fi.category n)
    constructor
    · simp [move_file, hname, noErr, hcd, hpe, hdest]
    · right
      simp [move_file, hname, noErr, hcd, hpe, hdest]


theorem renameFile_mem_of_ne {s : FS} {src dst p : Path} {c : Nat}
    (h : (p, c) ∈ s.files) (h1 : p ≠ src) (h2 : p ≠ dst) :
    (p, c) ∈ (s.renameFile src dst).files := by
  simp only [FS.renameFile, List.mem_append]
  left
  rw [List.mem_filter]
  refine ⟨h, ?_⟩
  simp only [Bool.and_eq_true, Bool.not_eq_true', decide_eq_false_iff_not]
  exact ⟨h1, h2⟩

theorem renameFile_mem_rev {s : FS} {src dst p : Path} {c : Nat}
    (h : (p, c) ∈ (s.renameFile src dst).files) (h2 : p ≠ dst) :
    (p, c) ∈ s.files := by
  simp only [FS.renameFile, List.mem_append, List.mem_filter, List.mem_cons,
    List.not_mem_nil, or_false] at h
  rcases h with ⟨hm, _⟩ | heq
  · exact hm
  · exact absurd (congrArg Prod.fst heq) h2

theorem renameFile_dst_mem {s : FS} {src dst : Path} :
    (dst, s.contentOf src) ∈ (s.renameFile src dst).files := by
  simp [FS.renameFile]

theorem renameFile_nodup {s : FS} {src dst : Path}
    (h : (s.files.map Prod.fst).Nodup) :
    ((s.renameFile src dst).files.map Prod.fst).Nodup := by
  simp only [FS.renameFile, List.map_append]
  rw [List.nodup_append]
  refine ⟨?_, by simp, ?_⟩
  · have hsub : (s.files.filter
        (fun e => !decide (e.1 = src) && !decide (e.1 = dst))).map Prod.fst |>.Sublist
        (s.files.map Prod.fst) :=
      List.Sublist.map _ (List.filter_sublist _)
    exact h.sublist hsub
  · intro p hp hq
    simp only [List.mem_map, List.mem_filter] at hp
    obtain ⟨e, ⟨_, he⟩, hpe⟩ := hp
    simp only [List.map_cons, List.map_nil, List.mem_singleton] at hq
    simp only [Bool.and_eq_true, Bool.not_eq_true', decide_eq_false_iff_not] at he
    exact he.2 (hpe.trans hq)

theorem find_eq_of_mem_nodup {l : List (Path × Nat)} {p : Path} {c : Nat}
    (h : (p, c) ∈ l) (hn : (l.map Prod.fst).Nodup) :
    l.find? (fun e => decide (e.1 = p)) = some (p, c) := by
  induction l with
  | nil => simp at h
  | cons e tl ih =>
    rcases List.mem_cons.mp h with heq | hm
    · subst heq
      simp [List.find?]
    · have hn' := List.nodup_cons.mp hn
      have hne : e.1 ≠ p := by
        intro hc
        exact hn'.1 (hc ▸ List.mem_map.mpr ⟨(p, c), hm, rfl⟩)
      rw [List.find?_cons_of_neg _ (by simp [hne])]
      exact ih hm hn'.2

theorem contentOf_eq_of_mem {s : FS} {p : Path} {c : Nat}
    (h : (p, c) ∈ s.files) (hn : (s.files.map Prod.fst).Nodup) :
    s.contentOf p = c := by
  simp [FS.contentOf, find_eq_of_mem_nodup h hn]


theorem skip_step_entry_preserved (fi : FileInfo) (base_path : Path) (s : FS)
    (p : Path) (c : Nat) (hmem : (p, c) ∈ s.files) (hne : p ≠ fi.path) :
    (p, c) ∈ (move_file noErr fi base_path "skip" false s).2.files := by
  rcases hname : fi.path.getLast? with _ | n
  · by_cases hcd : s.pathExists (base_path ++ [fi.category]) = true
    · simp only [move_file, hname, noErr]
      simp [hcd]
      exact hmem
    · simp only [move_file, hname, noErr]
      simp [hcd, FS.createDir]
      exact hmem
  · by_cases hdest : s.pathExists (base_path ++ [fi.category, n]) = true
    · rcases skip_step_skipped fi base_path s n hname hdest with he | he <;> rw [he]
      · exact hmem
      · exact hmem
    · have hd2 : p ≠ base_path ++ [fi.category, n] := by
        intro hc
        rw [hc] at hmem
        rw [FS.pathExists_of_mem_files hmem] at hdest
        exact hdest rfl
      obtain ⟨_, hst⟩ := skip_step_moved fi base_path s n hname (by simpa using hdest)
      rcases hst with he | he <;> rw [he]
      · exact renameFile_mem_of_ne hmem hne hd2
      · exact renameFile_mem_of_ne (s := s.createDir (base_path ++ [fi.category])) hmem hne hd2

theorem skip_step_entry_rev (fi : FileInfo) (base_path : Path) (s : FS)
    (p : Path) (c : Nat) (hroot : p.length = base_path.length + 1)
    (h : (p, c) ∈ (move_file noErr fi base_path "skip" false s).2.files) :
    (p, c) ∈ s.files := by
  rcases hname : fi.path.getLast? with _ | n
  · by_cases hcd : s.pathExists (base_path ++ [fi.category]) = true
    · simp only [move_file, hname, noErr] at h
      simp [hcd] at h
      exact h
    · simp only [move_file, hname, noErr] at h
      simp [hcd, FS.createDir] at h
      exact h
  · by_cases hdest : s.pathExists (base_path ++ [fi.category, n]) = true
    · rcases skip_step_skipped fi base_path s n hname hdest with he | he <;> rw [he] at h
      · exact h
      · exact h
    · have hd2 : p ≠ base_path ++ [fi.category, n] := by
        intro hc
        have := congrArg List.length hc
        simp [hroot] at this
      obtain ⟨_, hst⟩ := skip_step_moved fi base_path s n hname (by simpa using hdest)
      rcases hst with he | he <;> rw [he] at h
      · exact renameFile_mem_rev h hd2
      · exact renameFile_mem_rev (s := s.createDir (base_path ++ [fi.category])) h hd2

theorem skip_step_nodup (fi : FileInfo) (base_path : Path) (s : FS)
    (hn : (s.files.map Prod.fst).Nodup) :
    ((move_file noErr fi base_path "skip" false s).2.files.map Prod.fst).Nodup := by
  rcases hname : fi.path.getLast? with _ | n
  · by_cases hcd : s.pathExists (base_path ++ [fi.category]) = true
    · simp only [move_file, hname, noErr]
      simp [hcd]
      exact hn
    · simp only [move_file, hname, noErr]
      simp [hcd, FS.createDir]
      exact hn
  · by_cases hdest : s.pathExists (base_path ++ [fi.category, n]) = true
    · rcases skip_step_skipped fi base_path s n hname hdest with he | he <;> rw [he]
      · exact hn
      · exact hn
    · obtain ⟨_, hst⟩ := skip_step_moved fi base_path s n hname (by simpa using hdest)
      rcases hst with he | he <;> rw [he]
      · exact renameFile_nodup hn
      · exact renameFile_nodup (s := s.createDir (base_path ++ [fi.category])) hn

theorem skip_step_exists2 (fi : FileInfo) (base_path : Path) (s : FS) (p : Path)
    (hlen : p.length = base_path.length + 2)
    (hroot : fi.path.length = base_path.length + 1)
    (h : s.pathExists p = true) :
    (move_file noErr fi base_path "skip" false s).2.pathExists p = true := by
  rcases hname : fi.path.getLast? with _ | n
  · by_cases hcd : s.pathExists (base_path ++ [fi.category]) = true
    · simp only [move_file, hname, noErr]
      simp [hcd]
      exact h
    · simp only [move_file, hname, noErr]
      simp [hcd]
      exact pathExists_createDir_mono h
  · by_cases hdest : s.pathExists (base_path ++ [fi.category, n]) = true
    · rcases skip_step_skipped fi base_path s n hname hdest with he | he <;> rw [he]
      · exact h
      · exact pathExists_createDir_mono h
    · have hsrc : p ≠ fi.path := by
        intro hc
        rw [hc, hroot] at hlen
        omega
      obtain ⟨_, hst⟩ := skip_step_moved fi base_path s n hname (by simpa using hdest)
      by_cases hpd : p = base_path ++ [fi.category, n]
      · rcases hst with he | he <;> rw [he, hpd]
        · exact pathExists_renameFile_dst
        · exact pathExists_renameFile_dst
      · rcases hst with he | he <;> rw [he]
        · rw [pathExists_renameFile_ne hsrc hpd]
          exact h
        · rw [pathExists_renameFile_ne hsrc hpd]
          exact pathExists_createDir_mono h


theorem skip_loop_entry_root_rev (base_path : Path) :
    ∀ (files : List FileInfo) (st : RunState) (p : Path) (c : Nat),
      p.length = base_path.length + 1 →
      (p, c) ∈ (organizeLoop noErr base_path "skip" false files st).2.fs.files →
      (p, c) ∈ st.fs.files := by
  intro files
  induction files with
  | nil => intro st p c _ h; exact h
  | cons fi rest ih =>
    intro st p c hroot h
    rw [organizeLoop_cons] at h
    have := ih (processOne noErr base_path "skip" false st fi).2 p c hroot h
    rw [(processOne_outcome noErr base_path "skip" false st fi).2] at this
    exact skip_step_entry_rev fi base_path st.fs p c hroot this

theorem skip_loop_entry2 (base_path : Path) :
    ∀ (files : List FileInfo) (st : RunState),
      (∀ fj ∈ files, fj.path.length = base_path.length + 1) →
      ∀ (p : Path) (c : Nat), p.length = base_path.length + 2 → (p, c) ∈ st.fs.files →
      (p, c) ∈ (organizeLoop noErr base_path "skip" false files st).2.fs.files := by
  intro files
  induction files with
  | nil => intro st _ p c _ h; exact h
  | cons fi rest ih =>
    intro st hroot p c hlen hmem
    rw [organizeLoop_cons]
    apply ih _ (fun g hg => hroot g (List.mem_cons_of_mem _ hg)) p c hlen
    rw [(processOne_outcome noErr base_path "skip" false st fi).2]
    apply skip_step_entry_preserved fi base_path st.fs p c hmem
    intro hc
    have h1 := hroot fi (List.mem_cons_self _ _)
    rw [hc, h1] at hlen
    omega

theorem skip_loop_nodup (base_path : Path) :
    ∀ (files : List FileInfo) (st : RunState),
      (st.fs.files.map Prod.fst).Nodup →
      ((organizeLoop noErr base_path "skip" false files st).2.fs.files.map Prod.fst).Nodup := by
  intro files
  induction files with
  | nil => intro st h; exact h
  | cons fi rest ih =>
    intro st h
    rw [organizeLoop_cons]
    apply ih
    rw [(processOne_outcome noErr base_path "skip" false st fi).2]
    exact skip_step_nodup fi base_path st.fs h

theorem skip_loop_exists2 (base_path : Path) :
    ∀ (files : List FileInfo) (st : RunState) (p : Path),
      (∀ fj ∈ files, fj.path.length = base_path.length + 1) →
      p.length = base_path.length + 2 →
      st.fs.pathExists p = true →
      (organizeLoop noErr base_path "skip" false files st).2.fs.pathExists p = true := by
  intro files
  induction files with
  | nil => intro st p _ _ h; exact h
  | cons fi rest ih =>
    intro st p hroot hlen h
    rw [organizeLoop_cons]
    apply ih _ _ (fun g hg => hroot g (List.mem_cons_of_mem _ hg)) hlen
    rw [(processOne_outcome noErr base_path "skip" false st fi).2]
    exact skip_step_exists2 fi base_path st.fs p hlen (hroot fi (List.mem_cons_self _ _)) h

theorem skip_loop_dest_exists (base_path : Path) :
    ∀ (files : List FileInfo) (st : RunState),
      (∀ fj ∈ files, fj.path.length = base_path.length + 1) →
      ∀ fj ∈ files, ∀ n, fj.path.getLast? = some n →
      (organizeLoop noErr base_path "skip" false files st).2.fs.pathExists
        (base_path ++ [fj.category, n]) = true := by
  intro files
  induction files with
  | nil => intro st _ fj hj; simp at hj
  | cons fi rest ih =>
    intro st hroot fj hj n hn
    have hlen : (base_path ++ [fj.category, n]).length = base_path.length + 2 := by simp
    rcases List.mem_cons.mp hj with heq | hj'
    · rw [heq] at hn hlen ⊢
      rw [organizeLoop_cons]
      apply skip_loop_exists2 base_path rest _ _
        (fun g hg => hroot g (List.mem_cons_of_mem _ hg)) hlen
      rw [(processOne_outcome noErr base_path "skip" false st fi).2]
      by_cases hdest : st.fs.pathExists (base_path ++ [fi.category, n]) = true
      · exact skip_step_exists2 fi base_path st.fs _ hlen (hroot fi (List.mem_cons_self _ _)) hdest
      · obtain ⟨_, hst⟩ := skip_step_moved fi base_path st.fs n hn (by simpa using hdest)
        rcases hst with he | he <;> rw [he]
        · exact pathExists_renameFile_dst
        · exact pathExists_renameFile_dst
    · rw [organizeLoop_cons]
      exact ih (processOne noErr base_path "skip" false st fi).2
        (fun g hg => hroot g (List.mem_cons_of_mem _ hg)) fj hj' n hn

theorem exists_name_of_len {p : Path} {k : Nat} (h : p.length = k + 1) :
    ∃ n, p.getLast? = some n := by
  have hne : p ≠ [] := by
    intro hc
    rw [hc] at h
    simp at h
  rcases p.eq_nil_or_concat with rfl | ⟨l, a, rfl⟩
  · exact absurd rfl hne
  · exact ⟨a, by rw [List.concat_eq_append]; exact List.getLast?_concat l⟩

theorem skip_loop_all_skipped (base_path : Path) :
    ∀ (files : List FileInfo) (st : RunState),
      (∀ fj ∈ files, fj.path.length = base_path.length + 1) →
      (∀ fj ∈ files, ∀ n, fj.path.getLast? = some n →
        st.fs.pathExists (base_path ++ [fj.category, n]) = true) →
      (organizeLoop noErr base_path "skip" false files st).2.fs.files = st.fs.files ∧
      ∀ o ∈ (organizeLoop noErr base_path "skip" false files st).1, o = MoveOutcome.skipped := by
  intro files
  induction files with
  | nil => intro st _ _; exact ⟨rfl, by simp [organizeLoop]⟩
  | cons fi rest ih =>
    intro st hroot hdest
    obtain ⟨n, hn⟩ := exists_name_of_len (hroot fi (List.mem_cons_self _ _))
    have hd := hdest fi (List.mem_cons_self _ _) n hn
    rcases skip_step_skipped fi base_path st.fs n hn hd with he | he
    all_goals {
      rw [organizeLoop_cons]
      obtain ⟨p1, p2⟩ := processOne_outcome noErr base_path "skip" false st fi
      rw [he] at p1 p2
      obtain ⟨ih1, ih2⟩ := ih (processOne noErr base_path "skip" false st fi).2
        (fun g hg => hroot g (List.mem_cons_of_mem _ hg))
        (fun g hg m hm => by
          rw [p2]
          first
            | exact hdest g (List.mem_cons_of_mem _ hg) m hm
            | exact pathExists_createDir_mono (hdest g (List.mem_cons_of_mem _ hg) m hm))
      refine ⟨by simp [ih1, p2, FS.createDir], ?_⟩
      intro o ho
      rcases List.mem_cons.mp ho with rfl | ho'
      · rw [p1]
      · exact ih2 o ho'
    }


theorem skip_loop_not_mem_root (base_path : Path) (files : List FileInfo) (st : RunState)
    (p : Path) (hroot : p.length = base_path.length + 1)
    (h : ∀ c, (p, c) ∉ st.fs.files) :
    ∀ c, (p, c) ∉ (organizeLoop noErr base_path "skip" false files st).2.fs.files :=
  fun c hc => h c (skip_loop_entry_root_rev base_path files st p c hroot hc)

theorem skip_loop_moved_spec (base_path : Path) :
    ∀ (files : List FileInfo) (st : RunState),
      (∀ fj ∈ files, fj.path.length = base_path.length + 1) →
      (st.fs.files.map Prod.fst).Nodup →
      (∀ fj ∈ files, (fj.path, fj.size) ∈ st.fs.files) →
      (files.map FileInfo.path).Nodup →
      ∀ pr ∈ files.zip (organizeLoop noErr base_path "skip" false files st).1,
      ∀ d, pr.2 = MoveOutcome.moved d →
        (∀ c, (pr.1.path, c) ∉ (organizeLoop noErr base_path "skip" false files st).2.fs.files) ∧
        (d, pr.1.size) ∈ (organizeLoop noErr base_path "skip" false files st).2.fs.files := by
  intro files
  induction files with
  | nil => intro st _ _ _ _ pr hpr; simp [organizeLoop] at hpr
  | cons fi rest ih =>
    intro st hroot hnodup hentry hpaths pr hpr d hd
    rw [organizeLoop_cons] at hpr ⊢
    have hrootfi := hroot fi (List.mem_cons_self _ _)
    have hroot' : ∀ g ∈ rest, g.path.length = base_path.length + 1 :=
      fun g hg => hroot g (List.mem_cons_of_mem _ hg)
    rw [List.zip_cons_cons] at hpr
    rcases List.mem_cons.mp hpr with heq | hpr'
    · subst heq
      simp only at hd
      obtain ⟨p1, p2⟩ := processOne_outcome noErr base_path "skip" false st fi
      rw [p1] at hd
      obtain ⟨n, hn⟩ := exists_name_of_len hrootfi
      by_cases hdest : st.fs.pathExists (base_path ++ [fi.category, n]) = true
      · rcases skip_step_skipped fi base_path st.fs n hn hdest with he | he <;>
          (rw [he] at hd; exact absurd hd (by simp))
      · obtain ⟨ho, hst⟩ := skip_step_moved fi base_path st.fs n hn (by simpa using hdest)
        rw [ho] at hd
        simp only [MoveOutcome.moved.injEq] at hd
        subst hd
        have hcontent : st.fs.contentOf fi.path = fi.size :=
          contentOf_eq_of_mem (hentry fi (List.mem_cons_self _ _)) hnodup
        have hsrc_ne : fi.path ≠ base_path ++ [fi.category, n] := by
          intro hc
          have := congrArg List.length hc
          rw [hrootfi] at this
          simp at this
        constructor
        · apply skip_loop_not_mem_root base_path rest _ _ hrootfi
          intro c hc
          rw [p2] at hc
          rcases hst with he | he <;> rw [he] at hc
          · exact renameFile_removes_src hsrc_ne c hc
          · exact renameFile_removes_src (s := st.fs.createDir (base_path ++ [fi.category]))
              hsrc_ne c hc
        · apply skip_loop_entry2 base_path rest _ hroot' _ _ (by simp)
          rw [p2]
          rcases hst with he | he <;> rw [he]
          · rw [← hcontent]
            exact renameFile_dst_mem
          · rw [show fi.size = (st.fs.createDir (base_path ++ [fi.category])).contentOf fi.path
              from hcontent.symm]
            exact renameFile_dst_mem
    · have hpaths' := (List.nodup_cons.mp hpaths).2
      have hhead_notin := (List.nodup_cons.mp hpaths).1
      apply ih (processOne noErr base_path "skip" false st fi).2 hroot' _ _ hpaths' pr hpr' d hd
      · rw [(processOne_outcome noErr base_path "skip" false st fi).2]
        exact skip_step_nodup fi base_path st.fs hnodup
      · intro g hg
        rw [(processOne_outcome noErr base_path "skip" false st fi).2]
        apply skip_step_entry_preserved fi base_path st.fs _ _
          (hentry g (List.mem_cons_of_mem _ hg))
        intro hc
        exact hhead_notin (hc ▸ List.mem_map.mpr ⟨g, hg, rfl⟩)


theorem directChildName_spec {base p : Path} {n : String}
    (h : directChildName base p = some n) :
    p.length = base.length + 1 ∧ p.getLast? = some n := by
  unfold directChildName at h
  split at h
  case isTrue hc =>
    simp only [Bool.and_eq_true, decide_eq_true_eq] at hc
    exact ⟨hc.1, h⟩
  case isFalse => exact absurd h (by simp)

theorem scanRootFiles_mem {sniff : String → Option String} {base : Path} {s : FS}
    {fj : FileInfo} (h : fj ∈ scanRootFiles sniff base s) :
    ∃ n, directChildName base fj.path = some n ∧
      fj.mime_type = sniff n ∧ fj.category = categorize_file (sniff n) ∧
      (fj.path, fj.size) ∈ s.files := by
  simp only [scanRootFiles, List.mem_filterMap] at h
  obtain ⟨e, hmem, he⟩ := h
  cases hd : directChildName base e.1 with
  | none => rw [hd] at he; exact absurd he (by simp)
  | some n =>
    rw [hd] at he
    simp only [Option.some.injEq] at he
    subst he
    exact ⟨n, by simpa using hd, rfl, rfl, by simpa using hmem⟩

theorem scanRootFiles_of_entry {sniff : String → Option String} {base : Path} {s : FS}
    {p : Path} {c : Nat} {n : String}
    (hmem : (p, c) ∈ s.files) (hd : directChildName base p = some n) :
    (⟨p, sniff n, categorize_file (sniff n), c⟩ : FileInfo) ∈ scanRootFiles sniff base s := by
  simp only [scanRootFiles, List.mem_filterMap]
  exact ⟨(p, c), hmem, by simp [hd]⟩

theorem scanRootFiles_paths_sublist (sniff : String → Option String) (base : Path) (s : FS) :
    ((scanRootFiles sniff base s).map FileInfo.path).Sublist (s.files.map Prod.fst) := by
  unfold scanRootFiles
  induction s.files with
  | nil => simp
  | cons e tl ih =>
    simp only [List.filterMap_cons, List.map_cons]
    cases hd : directChildName base e.1 with
    | none => exact ih.trans (List.sublist_cons_self _ _)
    | some n =>
      simp only [List.map_cons]
      exact ih.cons₂ e.1

theorem scanRootFiles_paths_nodup {sniff : String → Option String} {base : Path} {s : FS}
    (h : (s.files.map Prod.fst).Nodup) :
    ((scanRootFiles sniff base s).map FileInfo.path).Nodup :=
  h.sublist (scanRootFiles_paths_sublist sniff base s)


theorem second_scan_subset (sniff : String → Option String) (base_path : Path) (fs0 : FS) :
    ∀ fj ∈ scanRootFiles sniff base_path (skipRun sniff base_path fs0).2.fs,
      fj ∈ scanRootFiles sniff base_path fs0 := by
  intro fj hj
  obtain ⟨n, hd, hm, hc, hmem⟩ := scanRootFiles_mem hj
  obtain ⟨hlen, _⟩ := directChildName_spec hd
  have hmem0 : (fj.path, fj.size) ∈ fs0.files :=
    skip_loop_entry_root_rev base_path (scanRootFiles sniff base_path fs0)
      (initRunState fs0 (scanRootFiles sniff base_path fs0).length) fj.path fj.size hlen hmem
  have hfj : fj = ⟨fj.path, sniff n, categorize_file (sniff n), fj.size⟩ := by
    obtain ⟨p, mt, ct, sz⟩ := fj
    simp only at hm hc ⊢
    rw [hm, hc]
  rw [hfj]
  exact scanRootFiles_of_entry hmem0 hd

/-- C7: running the engine twice in sequence on the same root with policy
Skip (non-recursive scan, error-free, over a well-formed state with
distinct file paths) moves each file at most once: the second run changes
no file (its outcomes are all Skipped), and every file the first run moved
is gone from the root (its original path holds no file and the second scan
does not report it) while sitting, with its content, at its destination
after both runs. -/
theorem skip_idempotent (sniff : String → Option String) (base_path : Path) (fs0 : FS)
    (hnodup : (fs0.files.map Prod.fst).Nodup) :
    ((skipRun sniff base_path (skipRun sniff base_path fs0).2.fs).2.fs.files =
      (skipRun sniff base_path fs0).2.fs.files) ∧
    (∀ o ∈ (skipRun sniff base_path (skipRun sniff base_path fs0).2.fs).1,
      o = MoveOutcome.skipped) ∧
    (∀ pr ∈ (scanRootFiles sniff base_path fs0).zip (skipRun sniff base_path fs0).1,
      ∀ d, pr.2 = MoveOutcome.moved d →
        (∀ c, (pr.1.path, c) ∉ (skipRun sniff base_path fs0).2.fs.files) ∧
        pr.1.path ∉
          (scanRootFiles sniff base_path (skipRun sniff base_path fs0).2.fs).map
            FileInfo.path ∧
        (d, pr.1.size) ∈ (skipRun sniff base_path fs0).2.fs.files ∧
        (d, pr.1.size) ∈
          (skipRun sniff base_path (skipRun sniff base_path fs0).2.fs).2.fs.files) := by
  have hroot1 : ∀ fj ∈ scanRootFiles sniff base_path fs0,
      fj.path.length = base_path.length + 1 := by
    intro fj hj
    obtain ⟨n, hd, _, _, _⟩ := scanRootFiles_mem hj
    exact (directChildName_spec hd).1
  have hentry1 : ∀ fj ∈ scanRootFiles sniff base_path fs0,
      (fj.path, fj.size) ∈ fs0.files := by
    intro fj hj
    obtain ⟨n, _, _, _, hmem⟩ := scanRootFiles_mem hj
    exact hmem
  have hpaths1 : ((scanRootFiles sniff base_path fs0).map FileInfo.path).Nodup :=
    scanRootFiles_paths_nodup hnodup
  have hroot2 : ∀ fj ∈ scanRootFiles sniff base_path (skipRun sniff base_path fs0).2.fs,
      fj.path.length = base_path.length + 1 := by
    intro fj hj
    obtain ⟨n, hd, _, _, _⟩ := scanRootFiles_mem hj
    exact (directChildName_spec hd).1
  have hdest2 : ∀ fj ∈ scanRootFiles sniff base_path (skipRun sniff base_path fs0).2.fs,
      ∀ n, fj.path.getLast? = some n →
      (skipRun sniff base_path fs0).2.fs.pathExists (base_path ++ [fj.category, n]) = true := by
    intro fj hj n hn
    have hj1 := second_scan_subset sniff base_path fs0 fj hj
    exact skip_loop_dest_exists base_path (scanRootFiles sniff base_path fs0)
      (initRunState fs0 (scanRootFiles sniff base_path fs0).length) hroot1 fj hj1 n hn
  obtain ⟨hfs2, hskip2⟩ := skip_loop_all_skipped base_path
    (scanRootFiles sniff base_path (skipRun sniff base_path fs0).2.fs)
    (initRunState (skipRun sniff base_path fs0).2.fs
      (scanRootFiles sniff base_path (skipRun sniff base_path fs0).2.fs).length)
    hroot2 hdest2
  have hfs2' : (skipRun sniff base_path (skipRun sniff base_path fs0).2.fs).2.fs.files =
      (skipRun sniff base_path fs0).2.fs.files := hfs2
  have hskip2' : ∀ o ∈ (skipRun sniff base_path (skipRun sniff base_path fs0).2.fs).1,
      o = MoveOutcome.skipped := hskip2
  refine ⟨hfs2', hskip2', ?_⟩
  intro pr hpr d hd
  obtain ⟨hnot, hmem⟩ := skip_loop_moved_spec base_path (scanRootFiles sniff base_path fs0)
    (initRunState fs0 (scanRootFiles sniff base_path fs0).length)
    hroot1 hnodup hentry1 hpaths1 pr hpr d hd
  refine ⟨hnot, ?_, hmem, ?_⟩
  · intro hin
    obtain ⟨fj, hfj, hfjp⟩ := List.mem_map.mp hin
    obtain ⟨n, hd', _, _, hmem'⟩ := scanRootFiles_mem hfj
    rw [hfjp] at hmem'
    exact hnot fj.size hmem'
  · rw [hfs2']
    exact hmem

/-- Witness for C7 at a concrete root: `photo.png` is moved to
Multimedia on the first run, `a.txt` is skipped (its destination
`Docs/a.txt` already exists), and the second run changes nothing. -/
theorem skip_idempotent_witness :
    (((⟨[(["photo.png"], 2048), (["a.txt"], 1), (["Docs", "a.txt"], 9)],
        [[], ["Docs"]]⟩ : FS).files.map Prod.fst).Nodup ∧
    (((skipRun (fun n => if n = "photo.png" then some "image/png"
          else if n = "a.txt" then some "text/plain" else none) []
        (skipRun (fun n => if n = "photo.png" then some "image/png"
          else if n = "a.txt" then some "text/plain" else none) []
          ⟨[(["photo.png"], 2048), (["a.txt"], 1), (["Docs", "a.txt"], 9)],
            [[], ["Docs"]]⟩).2.fs).2.fs.files =
      (skipRun (fun n => if n = "photo.png" then some "image/png"
          else if n = "a.txt" then some "text/plain" else none) []
          ⟨[(["photo.png"], 2048), (["a.txt"], 1), (["Docs", "a.txt"], 9)],
            [[], ["Docs"]]⟩).2.fs.files) ∧
    (∀ o ∈ (skipRun (fun n => if n = "photo.png" then some "image/png"
          else if n = "a.txt" then some "text/plain" else none) []
        (skipRun (fun n => if n = "photo.png" then some "image/png"
          else if n = "a.txt" then some "text/plain" else none) []
          ⟨[(["photo.png"], 2048), (["a.txt"], 1), (["Docs", "a.txt"], 9)],
            [[], ["Docs"]]⟩).2.fs).1,
      o = MoveOutcome.skipped) ∧
    (∀ pr ∈ (scanRootFiles (fun n => if n = "photo.png" then some "image/png"
          else if n = "a.txt" then some "text/plain" else none) []
          ⟨[(["photo.png"], 2048), (["a.txt"], 1), (["Docs", "a.txt"], 9)],
            [[], ["Docs"]]⟩).zip
        (skipRun (fun n => if n = "photo.png" then some "image/png"
          else if n = "a.txt" then some "text/plain" else none) []
          ⟨[(["photo.png"], 2048), (["a.txt"], 1), (["Docs", "a.txt"], 9)],
            [[], ["Docs"]]⟩).1,
      ∀ d, pr.2 = MoveOutcome.moved d →
        (∀ c, (pr.1.path, c) ∉ (skipRun (fun n => if n = "photo.png" then some "image/png"
            else if n = "a.txt" then some "text/plain" else none) []
            ⟨[(["photo.png"], 2048), (["a.txt"], 1), (["Docs", "a.txt"], 9)],
              [[], ["Docs"]]⟩).2.fs.files) ∧
        pr.1.path ∉
          (scanRootFiles (fun n => if n = "photo.png" then some "image/png"
              else if n = "a.txt" then some "text/plain" else none) []
            (skipRun (fun n => if n = "photo.png" then some "image/png"
              else if n = "a.txt" then some "text/plain" else none) []
              ⟨[(["photo.png"], 2048), (["a.txt"], 1), (["Docs", "a.txt"], 9)],
                [[], ["Docs"]]⟩).2.fs).map FileInfo.path ∧
        (d, pr.1.size) ∈ (skipRun (fun n => if n = "photo.png" then some "image/png"
            else if n = "a.txt" then some "text/plain" else none) []
            ⟨[(["photo.png"], 2048), (["a.txt"], 1), (["Docs", "a.txt"], 9)],
              [[], ["Docs"]]⟩).2.fs.files ∧
        (d, pr.1.size) ∈
          (skipRun (fun n => if n = "photo.png" then some "image/png"
              else if n = "a.txt" then some "text/plain" else none) []
            (skipRun (fun n => if n = "photo.png" then some "image/png"
              else if n = "a.txt" then some "text/plain" else none) []
              ⟨[(["photo.png"], 2048), (["a.txt"], 1), (["Docs", "a.txt"], 9)],
                [[], ["Docs"]]⟩).2.fs).2.fs.files))) :=
  ⟨by decide,
    skip_idempotent
      (fun n => if n = "photo.png" then some "image/png"
        else if n = "a.txt" then some "text/plain" else none) []
      ⟨[(["photo.png"], 2048), (["a.txt"], 1), (["Docs", "a.txt"], 9)], [[], ["Docs"]]⟩
      (by decide)⟩


end FileOrg
